import Mathlib

/-!
# Verification of the quadra-invoice extraction engine

Shallow embedding of the two source files of the repository:

* `src/app.py` — the three simple charge-line parsers (`parse_telstra`,
  `parse_optus`, `parse_vodafone`) and the carrier selector
  (`extract_invoice_data`);
* `src/pages/3_Telstra_Mobile_Summary.py` — the detailed-summary parser
  (`parse_telstra_pdf`).

Python strings are modelled as `List Char`, Python floats as `ℚ`,
`None`/raised `ValueError` as `Option`.  The `re` module calls are modelled
by a small backtracking engine over a regex AST; the engine returns the
list of all matches in Python's backtracking priority order, so Python's
chosen match is the head of that list.
-/

namespace Quadra

attribute [local semireducible] Rat.mul Rat.add Rat.sub Rat.inv

set_option linter.unreachableTactic false
set_option linter.unusedTactic false
set_option linter.unnecessarySeqFocus false

/-- Characters of Python's `\s` class (also the characters removed by
`str.strip()` / `str.rstrip()` for the ASCII texts modelled here). -/
def pyIsSpace (c : Char) : Bool :=
  c = ' ' || c = '\t' || c = '\n' || c = '\r' || c = '\x0b' || c = '\x0c'

/-- Python `str.rstrip()`. -/
def pyRstrip (l : List Char) : List Char :=
  (l.reverse.dropWhile pyIsSpace).reverse

/-- Python `str.strip()`. -/
def pyStrip (l : List Char) : List Char :=
  pyRstrip (l.dropWhile pyIsSpace)

/-- Python `str.lower()` (ASCII). -/
def pyLower (l : List Char) : List Char :=
  l.map Char.toLower

/-- Auxiliary scanner for `pySplitLines`. -/
def pySplitLinesGo : List Char → List Char → List (List Char)
  | [], acc => [acc.reverse]
  | c :: rest, acc =>
    if c = '\n' then
      acc.reverse :: (if rest.isEmpty then [] else pySplitLinesGo rest [])
    else pySplitLinesGo rest (c :: acc)

/-- Python `str.splitlines()` for `\n`-separated text (the only line
separator occurring in the modelled page texts): no trailing empty line,
and the empty string yields no lines. -/
def pySplitLines (l : List Char) : List (List Char) :=
  if l.isEmpty then [] else pySplitLinesGo l []

/-- Python `needle in haystack` substring test. -/
def containsSub (haystack needle : List Char) : Bool :=
  match haystack with
  | [] => needle.isEmpty
  | c :: t => needle.isPrefixOf (c :: t) || containsSub t needle

/-- Python `s.replace(c, "")` for a single-character pattern. -/
def removeChar (c : Char) (l : List Char) : List Char :=
  l.filter (· ≠ c)

/-- Python `" ".join(xs)`. -/
def joinSpace (xs : List (List Char)) : List Char :=
  List.intercalate [' '] xs

/-- Python `str.isdigit()` (ASCII): nonempty and all digits. -/
def pyIsDigitStr (l : List Char) : Bool :=
  !l.isEmpty && l.all Char.isDigit

/-- Python `int()` on a string of decimal digits. -/
def pyInt (l : List Char) : Nat :=
  l.foldl (fun a c => 10 * a + (c.toNat - 48)) 0

/-- Python `float()` on the capture strings arising here (characters drawn
from digits, `.` and `,`): it succeeds exactly on strings made of digits
and at most one dot containing at least one digit, and raises `ValueError`
(modelled `none`) otherwise — in particular on any string containing `,`. -/
def pyFloat (l : List Char) : Option ℚ :=
  if l.all (fun c => c.isDigit || c = '.') && l.count '.' ≤ 1 && l.any Char.isDigit then
    let ip := l.takeWhile (· ≠ '.')
    let fp := (l.dropWhile (· ≠ '.')).drop 1
    some ((pyInt ip : ℚ) + (pyInt fp : ℚ) / (10 : ℚ) ^ fp.length)
  else none

/-- The floor of a rational, computed as Euclidean division of the
numerator by the (positive) denominator; `ratFloor_eq_floor` below checks
it against Mathlib's floor. -/
def ratFloor (q : ℚ) : ℤ :=
  Int.ediv q.num q.den

/-- Round-half-to-even on rationals, the tie-breaking used by Python's
built-in `round`: with `f` the floor and `r` the (nonnegative) remainder
of the numerator by the denominator, the fractional part `r/den` is
compared against one half, and ties go to the even neighbour.
`roundHalfEven_eq_floor_form` below restates this through Mathlib's
floor. -/
def roundHalfEven (q : ℚ) : ℤ :=
  let f := ratFloor q
  let r := q.num - f * q.den
  if 2 * r < (q.den : ℤ) then f
  else if (q.den : ℤ) < 2 * r then f + 1
  else if f % 2 = 0 then f else f + 1

/-- Python `round(q, 2)`. -/
def pyRound2 (q : ℚ) : ℚ :=
  mkRat (roundHalfEven (q * 100)) 100

/-! ## Regex engine

AST for the fragment of Python `re` used by the sources: character
classes, concatenation, alternation, greedy and lazy Kleene star,
numbered capturing groups and the `$` anchor. -/

inductive RE where
  | eps : RE
  | cls (p : Char → Bool) : RE
  | seq (a b : RE) : RE
  | alt (a b : RE) : RE
  | starG (a : RE) : RE
  | starL (a : RE) : RE
  | grp (k : Nat) (a : RE) : RE
  | eol : RE

/-- Capture environment: most recent binding of each group number first. -/
abbrev Caps := List (Nat × List Char)

/-- Record a capture (later bindings shadow earlier ones, as in Python a
group's last participation wins). -/
def capSet (caps : Caps) (k : Nat) (v : List Char) : Caps :=
  (k, v) :: caps

/-- Read back a capture. -/
def capGet (caps : Caps) (k : Nat) : Option (List Char) :=
  (List.find? (fun q => q.1 = k) caps).map (·.2)

/-- All ways the pattern can match a prefix of `s`, each as (remaining
suffix, captures), listed in Python's backtracking priority order: the
head is the match Python's engine commits to.  Greedy repetition explores
longer iterations first, lazy repetition shorter ones, alternation the
left branch first.  `fuel` bounds the recursion depth; star iterations
must consume input. -/
def runRE : Nat → RE → List Char → Caps → List (List Char × Caps)
  | 0, _, _, _ => []
  | _ + 1, .eps, s, caps => [(s, caps)]
  | _ + 1, .cls p, s, caps =>
    match s with
    | [] => []
    | c :: t => if p c then [(t, caps)] else []
  | n + 1, .seq a b, s, caps =>
    (runRE n a s caps).flatMap fun r => runRE n b r.1 r.2
  | n + 1, .alt a b, s, caps => runRE n a s caps ++ runRE n b s caps
  | n + 1, .starG a, s, caps =>
    ((runRE n a s caps).flatMap fun r =>
      if r.1.length < s.length then runRE n (.starG a) r.1 r.2 else []) ++ [(s, caps)]
  | n + 1, .starL a, s, caps =>
    (s, caps) :: ((runRE n a s caps).flatMap fun r =>
      if r.1.length < s.length then runRE n (.starL a) r.1 r.2 else [])
  | n + 1, .grp k a, s, caps =>
    (runRE n a s caps).map fun r => (r.1, capSet r.2 k (s.take (s.length - r.1.length)))
  | _ + 1, .eol, s, caps =>
    if s = [] ∨ s = ['\n'] then [(s, caps)] else []

/-- Node count of a pattern, used to compute a sufficient fuel bound. -/
def reSize : RE → Nat
  | .eps => 1
  | .cls _ => 1
  | .seq a b => reSize a + reSize b + 1
  | .alt a b => reSize a + reSize b + 1
  | .starG a => reSize a + 1
  | .starL a => reSize a + 1
  | .grp _ a => reSize a + 1
  | .eol => 1

/-- Ample fuel: recursion depth is bounded by the pattern depth plus one
star unfolding per consumed character. -/
def fuelFor (re : RE) (s : List Char) : Nat :=
  (s.length + 1) * (reSize re + 1)

/-- The match (if any) the Python engine finds anchored at the start of
`s`: remaining suffix and captures.  Models `re.match` at this position. -/
def reFirst (re : RE) (s : List Char) : Option (List Char × Caps) :=
  (runRE (fuelFor re s) re s []).head?

/-- `re.search`: try successive start positions left to right. -/
def searchAux (re : RE) : List Char → Option (List Char × Caps)
  | [] => reFirst re []
  | c :: t =>
    match reFirst re (c :: t) with
    | some r => some r
    | none => searchAux re t

/-- Captures of the leftmost match, if any (`re.search`). -/
def reSearch (re : RE) (s : List Char) : Option Caps :=
  (searchAux re s).map (·.2)

/-- `re.findall`: captures of every non-overlapping match, scanning left
to right and resuming after each match (advancing one position after an
empty match). -/
def findallAux (re : RE) : Nat → List Char → List Caps
  | 0, _ => []
  | n + 1, s =>
    match reFirst re s with
    | some (s', caps) =>
      caps :: (if s'.length < s.length then findallAux re n s'
               else match s with
                    | [] => []
                    | _ :: t => findallAux re n t)
    | none =>
      match s with
      | [] => []
      | _ :: t => findallAux re n t

/-- `re.findall`. -/
def findall (re : RE) (s : List Char) : List Caps :=
  findallAux re (s.length + 1) s

/-! ### Pattern combinators mirroring the concrete syntax -/

/-- A single literal character. -/
def chrRE (c : Char) : RE := .cls (· = c)

/-- A literal word given as a character list. -/
def litL (w : List Char) : RE :=
  w.foldr (fun c r => .seq (chrRE c) r) .eps

/-- A literal word. -/
def litRE (w : String) : RE := litL w.data

/-- `\d`. -/
def digitRE : RE := .cls Char.isDigit

/-- `\s`. -/
def spaceRE : RE := .cls pyIsSpace

/-- `.` (no DOTALL). -/
def dotRE : RE := .cls (· ≠ '\n')

/-- `.` under `re.S`. -/
def dotAllRE : RE := .cls fun _ => true

/-- Greedy `r+`. -/
def plusG (r : RE) : RE := .seq r (.starG r)

/-- Lazy `r+?`. -/
def plusL (r : RE) : RE := .seq r (.starL r)

/-- Greedy `r?`. -/
def optG (r : RE) : RE := .alt r .eps

/-- `r{n}`. -/
def repN : Nat → RE → RE
  | 0, _ => .eps
  | n + 1, r => .seq r (repN n r)

/-- Greedy `r{0,n}`. -/
def repUpTo : Nat → RE → RE
  | 0, _ => .eps
  | n + 1, r => .alt (.seq r (repUpTo n r)) .eps

/-- Greedy `r{m,n}`. -/
def repRange (m n : Nat) (r : RE) : RE :=
  .seq (repN m r) (repUpTo (n - m) r)

/-! ## Concrete patterns of `src/app.py` -/

/-- Body of the Telstra number group `\d{4}\s?\d{3}\s?\d{3}`. -/
def telstraNumBody : RE :=
  .seq (repN 4 digitRE) (.seq (optG spaceRE)
    (.seq (repN 3 digitRE) (.seq (optG spaceRE) (repN 3 digitRE))))

/-- `Mobile (\d{4}\s?\d{3}\s?\d{3})` (src/app.py line 27). -/
def telstraMobileRE : RE :=
  .seq (litRE "Mobile ") (.grp 1 telstraNumBody)

/-- `[\d,]*\.\d{2}` — a currency amount with two decimals. -/
def moneyBody : RE :=
  .seq (.starG (.cls fun c => c.isDigit || c = ',')) (.seq (chrRE '.') (repN 2 digitRE))

/-- `(.+?)\s+\$([\d,]*\.\d{2})\s+\$([\d,]*\.\d{2})` (src/app.py line 35). -/
def telstraChargeRE : RE :=
  .seq (.grp 1 (plusL dotRE)) (.seq (plusG spaceRE) (.seq (chrRE '$')
    (.seq (.grp 2 moneyBody) (.seq (plusG spaceRE) (.seq (chrRE '$') (.grp 3 moneyBody))))))

/-- `04\d{8}`. -/
def num04Body : RE :=
  .seq (chrRE '0') (.seq (chrRE '4') (repN 8 digitRE))

/-- `[\d,]*\.\d{2}|\d+`. -/
def amtBody : RE := .alt moneyBody (plusG digitRE)

/-- `(04\d{8}) on \$([\d,]*\.\d{2}|\d+)\s+(.+?M2M)` (src/app.py line 59). -/
def optusLineRE : RE :=
  .seq (.grp 1 num04Body) (.seq (litRE " on $") (.seq (.grp 2 amtBody)
    (.seq (plusG spaceRE) (.grp 3 (.seq (plusL dotRE) (litRE "M2M"))))))

/-- `{number}.*?Total Monthly Charges\s+\$([\d\.]+)` under `re.S`
(src/app.py line 63). -/
def optusDiscRE (number : List Char) : RE :=
  .seq (litL number) (.seq (.starL dotAllRE) (.seq (litRE "Total Monthly Charges")
    (.seq (plusG spaceRE) (.seq (chrRE '$')
      (.grp 1 (plusG (.cls fun c => c.isDigit || c = '.')))))))

/-- `(04\d{8}) on \$([\d,]*\.\d{2}|\d+)\s+(.+?)(?:\s|$)` (src/app.py line 85). -/
def vodaLineRE : RE :=
  .seq (.grp 1 num04Body) (.seq (litRE " on $") (.seq (.grp 2 amtBody)
    (.seq (plusG spaceRE) (.seq (.grp 3 (plusL dotRE)) (.alt spaceRE .eol)))))

/-- `[\d,]*\.\d2` — the amount body the rf-string at src/app.py line 96
actually produces: inside an f-string the brace pair of the intended
repetition is evaluated as the expression 2, leaving a single `\d`
followed by the literal character `2`. -/
def vodaOverrideBody : RE :=
  .seq (.starG (.cls fun c => c.isDigit || c = ','))
    (.seq (chrRE '.') (.seq digitRE (chrRE '2')))

/-- The pattern built by `rf"\x7bnumber\x7d.*?\$([\d,]*\.\d\x7b2\x7d)"`
(src/app.py line 96): the f-string substitutes the number and evaluates
the second brace pair to the literal `2`, so the compiled regex is
`<number>.*?\$([\d,]*\.\d2)`. -/
def vodaOverrideRE (number : List Char) : RE :=
  .seq (litL number) (.seq (.starL dotRE) (.seq (chrRE '$') (.grp 1 vodaOverrideBody)))

/-! ## Data model -/

/-- A page as delivered by the external page source: extracted text
(`page.extract_text() or ""`, so a `None` text is the empty string) and
extracted tables (cells with `None` replaced by `""`, which the sources do
themselves via `(c or "")`). -/
structure Page where
  text : String
  tables : List (List (List String))

/-- One row of the simple-mode output table (columns of src/app.py);
absent values model Python `None`. -/
structure SimpleRow where
  mobileNumber : String
  planName : String
  spendExclGST : Option ℚ
  spendInclGST : Option ℚ
deriving DecidableEq, Repr

/-! ## `parse_telstra` (src/app.py lines 15–46) -/

/-- One iteration of the line loop: a mobile-number header line updates
`current_number`; otherwise a qualifying plan/charge line with a known
current number appends a row.  `none` models the uncaught `ValueError`
raised by `float` on an unparsable amount. -/
def telstraLineStep (st : Option String × List SimpleRow) (line : List Char) :
    Option (Option String × List SimpleRow) :=
  match reSearch telstraMobileRE line with
  | some caps =>
    some (some (String.mk (removeChar ' ' ((capGet caps 1).getD []))), st.2)
  | none =>
    if containsSub line "Business".data &&
        (containsSub line "Plan".data || containsSub line "Bundle".data) then
      match reFirst telstraChargeRE line, st.1 with
      | some (_, caps), some num =>
        match pyFloat (removeChar ',' ((capGet caps 2).getD [])),
              pyFloat (removeChar ',' ((capGet caps 3).getD [])) with
        | some ex, some inc =>
          some (st.1, st.2 ++
            [⟨num, String.mk (pyStrip ((capGet caps 1).getD [])), some ex, some inc⟩])
        | _, _ => none
      | _, _ => some st
    else some st

/-- The page loop of `parse_telstra`; `current_number` persists across
pages. -/
def telstraPages : Option String × List SimpleRow → List Page → Option (List SimpleRow)
  | st, [] => some st.2
  | st, p :: ps =>
    if p.text.data.isEmpty then telstraPages st ps
    else
      match (pySplitLines p.text.data).foldlM telstraLineStep st with
      | none => none
      | some st' => telstraPages st' ps

/-- `parse_telstra`. -/
def parse_telstra (doc : List Page) : Option (List SimpleRow) :=
  telstraPages (none, []) doc

/-! ## `parse_optus` (src/app.py lines 50–71) -/

/-- `" ".join([p.extract_text() or "" for p in pdf.pages])`. -/
def fullTextOf (doc : List Page) : List Char :=
  joinSpace (doc.map (·.text.data))

/-- The tax-inclusive amount used for one Optus match (src/app.py line
64): the "Total Monthly Charges" amount found by the document-wide search
for this number, when present, else the nominal amount from the line.
`none` models the uncaught `ValueError` from `float`. -/
def optusSpend (fullText number rawPrice : List Char) : Option ℚ :=
  match reSearch (optusDiscRE number) fullText with
  | some caps => pyFloat ((capGet caps 1).getD [])
  | none => pyFloat rawPrice

/-- Rows for the matches of one page, in order. -/
def optusMatchRows (fullText : List Char) : List Caps → Option (List SimpleRow)
  | [] => some []
  | caps :: rest =>
    match optusSpend fullText ((capGet caps 1).getD []) ((capGet caps 2).getD []) with
    | none => none
    | some spend =>
      (optusMatchRows fullText rest).map
        (⟨String.mk ((capGet caps 1).getD []), String.mk (pyStrip ((capGet caps 3).getD [])),
          some (pyRound2 (spend / (11 / 10))), some spend⟩ :: ·)

/-- The page loop of `parse_optus`. -/
def optusPages (fullText : List Char) : List Page → Option (List SimpleRow)
  | [] => some []
  | p :: ps =>
    if p.text.data.isEmpty then optusPages fullText ps
    else
      match optusMatchRows fullText (findall optusLineRE p.text.data) with
      | none => none
      | some rs => (optusPages fullText ps).map (rs ++ ·)

/-- `parse_optus`. -/
def parse_optus (doc : List Page) : Option (List SimpleRow) :=
  optusPages (fullTextOf doc) doc

/-! ## `parse_vodafone` (src/app.py lines 75–114) -/

/-- The tax-inclusive amount for one Vodafone match (src/app.py lines
90–101): the nominal amount when it parses (`None` otherwise), replaced by
the first `$[\d,]*\.\d2` amount (second decimal digit a literal `2`, per
`vodaOverrideRE`) following the number anywhere in the document text when
that amount parses. -/
def vodaSpendIncl (fullText number amtStr : List Char) : Option ℚ :=
  let nominal := pyFloat (removeChar ',' amtStr)
  match reSearch (vodaOverrideRE number) fullText with
  | some caps =>
    match pyFloat (removeChar ',' ((capGet caps 1).getD [])) with
    | some v => some v
    | none => nominal
  | none => nominal

/-- Rows for the matches of one page, in order. -/
def vodaMatchRows (fullText : List Char) : List Caps → List SimpleRow
  | [] => []
  | caps :: rest =>
    let number := (capGet caps 1).getD []
    let inc := vodaSpendIncl fullText number ((capGet caps 2).getD [])
    ⟨String.mk number, String.mk (pyStrip ((capGet caps 3).getD [])),
      inc.map (fun v => pyRound2 (v / (11 / 10))), inc⟩ :: vodaMatchRows fullText rest

/-- The page loop of `parse_vodafone`. -/
def vodaPages (fullText : List Char) : List Page → List SimpleRow
  | [] => []
  | p :: ps =>
    if p.text.data.isEmpty then vodaPages fullText ps
    else vodaMatchRows fullText (findall vodaLineRE p.text.data) ++ vodaPages fullText ps

/-- `parse_vodafone`. -/
def parse_vodafone (doc : List Page) : List SimpleRow :=
  vodaPages (fullTextOf doc) doc

/-! ## `extract_invoice_data` (src/app.py lines 118–128) -/

/-- `"Telstra Limited" in full_text or "telstra.com" in full_text.lower()`. -/
def telstraMarker (ft : List Char) : Bool :=
  containsSub ft "Telstra Limited".data || containsSub (pyLower ft) "telstra.com".data

/-- `"Optus Billing Services" in full_text or "Optus" in full_text`. -/
def optusMarker (ft : List Char) : Bool :=
  containsSub ft "Optus Billing Services".data || containsSub ft "Optus".data

/-- `"Vodafone" in full_text or "Vodafone Pty" in full_text`. -/
def vodafoneMarker (ft : List Char) : Bool :=
  containsSub ft "Vodafone".data || containsSub ft "Vodafone Pty".data

/-- `extract_invoice_data`: pick the carrier parser by marker sniffing, in
source order; `none` models an exception escaping the chosen parser. -/
def extract_invoice_data (doc : List Page) : Option (List SimpleRow × String) :=
  let ft := fullTextOf doc
  if telstraMarker ft then (parse_telstra doc).map (·, "Telstra")
  else if optusMarker ft then (parse_optus doc).map (·, "Optus")
  else if vodafoneMarker ft then some (parse_vodafone doc, "Vodafone")
  else some ([], "Unknown")

/-! ## Patterns of `src/pages/3_Telstra_Mobile_Summary.py` -/

/-- `Mobile\s+([0-9 ]{8,15})` (line 66). -/
def summaryHeaderRE : RE :=
  .seq (litRE "Mobile") (.seq (plusG spaceRE)
    (.grp 1 (repRange 8 15 (.cls fun c => c.isDigit || c = ' '))))

/-- `.*?(\d+)\s*calls` (or `calls?` when `optS`), the common tail of the
count patterns (lines 80–106). -/
def countTailRE (optS : Bool) : RE :=
  .seq (.starL dotRE) (.seq (.grp 1 (plusG digitRE)) (.seq (.starG spaceRE)
    (if optS then .seq (litRE "call") (optG (chrRE 's')) else litRE "calls")))

/-- `National Direct.*?(\d+)\s*calls`. -/
def natDirectRE : RE := .seq (litRE "National Direct") (countTailRE false)

/-- `Mobile Originated SMS.*?(\d+)\s*calls`. -/
def smsOrigRE : RE := .seq (litRE "Mobile Originated SMS") (countTailRE false)

/-- `Mobile Enhanced SMS.*?(\d+)\s*calls?`. -/
def enhSmsRE : RE := .seq (litRE "Mobile Enhanced SMS") (countTailRE true)

/-- `Call Diversion.*?(\d+)\s*calls`. -/
def callDivRE : RE := .seq (litRE "Call Diversion") (countTailRE false)

/-- `Calls made O/S.*?(\d+)\s*calls`. -/
def callsMadeOSRE : RE := .seq (litRE "Calls made O/S") (countTailRE false)

/-- `Calls received O/S.*?(\d+)\s*calls`. -/
def callsRecvOSRE : RE := .seq (litRE "Calls received O/S") (countTailRE false)

/-- `Data Usage Overseas.*?(\d+)\s*calls?`. -/
def osDataRE : RE := .seq (litRE "Data Usage Overseas") (countTailRE true)

/-- `[\d.]`. -/
def numDotRE : RE := .cls fun c => c.isDigit || c = '.'

/-- `\s*\$?\s*([\d.]+)\s*\$?\s*([\d.]+)`, the common tail of the two
Total-charges patterns (lines 109–125). -/
def chargesTailRE : RE :=
  .seq (.starG spaceRE) (.seq (optG (chrRE '$')) (.seq (.starG spaceRE)
    (.seq (.grp 1 (plusG numDotRE)) (.seq (.starG spaceRE) (.seq (optG (chrRE '$'))
      (.seq (.starG spaceRE) (.grp 2 (plusG numDotRE))))))))

/-- `Total call charges\s*\$?\s*([\d.]+)\s*\$?\s*([\d.]+)`. -/
def totCallRE : RE := .seq (litRE "Total call charges") chargesTailRE

/-- `Total service charges\s*\$?\s*([\d.]+)\s*\$?\s*([\d.]+)`. -/
def totSvcRE : RE := .seq (litRE "Total service charges") chargesTailRE

/-! ## Detailed-summary data model -/

/-- The per-mobile running-totals record (the `defaultdict` value of lines
44–58). -/
structure SummaryRec where
  natDirectCalls : Nat
  smsOriginated : Nat
  enhancedSms : Nat
  callDiversionCalls : Nat
  callsMadeOverseas : Nat
  callsReceivedOverseas : Nat
  overseasDataSessions : Nat
  totCallEx : ℚ
  totCallInc : ℚ
  totSvcEx : ℚ
  totSvcInc : ℚ
  wapVolumeKB : Nat
  overseasCountries : List String
deriving DecidableEq, Repr

/-- The zero-initialized record. -/
def initRec : SummaryRec := ⟨0, 0, 0, 0, 0, 0, 0, 0, 0, 0, 0, 0, []⟩

/-- Captured count of a count pattern on a line, when it matches. -/
def searchCount (re : RE) (l : List Char) : Option Nat :=
  (reSearch re l).map fun caps => pyInt ((capGet caps 1).getD [])

/-- One line of the summary loop (lines 76–134): every matcher is applied
to the stripped line; count metrics overwrite their counter, the two
Total-charges metrics add both amounts (skipping the line when an amount
fails to parse, as the `ValueError` handler does). -/
def processLine (d : SummaryRec) (line : List Char) : SummaryRec :=
  let l := pyStrip line
  let d := match searchCount natDirectRE l with
    | some v => {d with natDirectCalls := v}
    | none => d
  let d := match searchCount smsOrigRE l with
    | some v => {d with smsOriginated := v}
    | none => d
  let d := match searchCount enhSmsRE l with
    | some v => {d with enhancedSms := v}
    | none => d
  let d := match searchCount callDivRE l with
    | some v => {d with callDiversionCalls := v}
    | none => d
  let d := match searchCount callsMadeOSRE l with
    | some v => {d with callsMadeOverseas := v}
    | none => d
  let d := match searchCount callsRecvOSRE l with
    | some v => {d with callsReceivedOverseas := v}
    | none => d
  let d := match searchCount osDataRE l with
    | some v => {d with overseasDataSessions := v}
    | none => d
  let d := match reSearch totCallRE l with
    | some caps =>
      match pyFloat ((capGet caps 1).getD []), pyFloat ((capGet caps 2).getD []) with
      | some ex, some inc =>
        {d with totCallEx := d.totCallEx + ex, totCallInc := d.totCallInc + inc}
      | _, _ => d
    | none => d
  match reSearch totSvcRE l with
  | some caps =>
    match pyFloat ((capGet caps 1).getD []), pyFloat ((capGet caps 2).getD []) with
    | some ex, some inc =>
      {d with totSvcEx := d.totSvcEx + ex, totSvcInc := d.totSvcInc + inc}
    | _, _ => d
  | none => d

/-! ## Table classification (lines 137–210) -/

/-- The alias list of line 156 (with its duplicated entry). -/
def descAliases : List (List Char) :=
  ["description".data, "call type".data, "number dialled".data,
   "number dialed".data, "number dialled".data]

/-- A header cell naming the description / call-type column. -/
def hasDescAlias (h : List Char) : Bool :=
  descAliases.any fun x => containsSub h x

/-- A header cell naming the Vol(KB) column: contains "vol" and "kb". -/
def isVolHeader (h : List Char) : Bool :=
  containsSub h "vol".data && containsSub h "kb".data

/-- A header cell naming the Location column. -/
def isLocHeader (h : List Char) : Bool :=
  containsSub h "location".data

/-- Index search from position `i`: the index loop of lines 151–160
overwrites on every match, so the LAST matching header cell wins. -/
def lastIdxWhereFrom (p : List Char → Bool) : Nat → List (List Char) → Option Nat
  | _, [] => none
  | i, x :: xs =>
    match lastIdxWhereFrom p (i + 1) xs with
    | some j => some j
    | none => if p x then some i else none

/-- Index of the last header cell satisfying `p` (lines 151–160). -/
def lastIdxWhere (p : List Char → Bool) (l : List (List Char)) : Option Nat :=
  lastIdxWhereFrom p 0 l

/-- `" ".join(cells_lower)` for one data row. -/
def rowText (row : List (List Char)) : List Char :=
  joinSpace (row.map pyLower)

/-- A data row marking the table as "Data usage overseas (GST FREE)". -/
def osRow (row : List (List Char)) : Bool :=
  containsSub (rowText row) "data usage overseas".data &&
    containsSub (rowText row) "gst free".data

/-- A data row whose description/call-type cell marks the table as
WAP/Internet sessions. -/
def wapMarkRow (di : Nat) (row : List (List Char)) : Bool :=
  decide (di < row.length) &&
    (containsSub (pyLower (row.getD di [])) "wap".data ||
     containsSub (pyLower (row.getD di [])) "internet".data)

/-- Python `set.add` on the modelled insertion-ordered country set. -/
def setAdd (l : List String) (x : String) : List String :=
  if x ∈ l then l else l ++ [x]

/-- Second pass over one data row (lines 194–210): add the Vol(KB) cell
for a WAP table, add the Location cell for an overseas-data row. -/
def tableRowStep (osTbl wapTbl : Bool) (volIdx locIdx : Option Nat) (d : SummaryRec)
    (row : List (List Char)) : SummaryRec :=
  let d :=
    match volIdx with
    | some vi =>
      if wapTbl && decide (vi < row.length) then
        let volCell := pyStrip (removeChar ',' (row.getD vi []))
        if pyIsDigitStr volCell then
          {d with wapVolumeKB := d.wapVolumeKB + pyInt volCell}
        else d
      else d
    | none => d
  if osTbl && osRow row then
    match locIdx with
    | some li =>
      if li < row.length then
        let loc := pyStrip (row.getD li [])
        if loc.isEmpty then d
        else {d with overseasCountries := setAdd d.overseasCountries (String.mk loc)}
      else d
    | none => d
  else d

/-- One extracted table (lines 138–210). -/
def processTable (d : SummaryRec) (tbl : List (List (List Char))) : SummaryRec :=
  if tbl.length < 2 then d
  else
    let headerLower := (tbl.headD []).map fun c => pyLower (pyStrip c)
    let volIdx := lastIdxWhere isVolHeader headerLower
    let descIdx := lastIdxWhere hasDescAlias headerLower
    let locIdx := lastIdxWhere isLocHeader headerLower
    match descIdx with
    | none => d
    | some di =>
      let rows := tbl.tail
      let osTbl := rows.any osRow
      let wapTbl := !osTbl && rows.any (wapMarkRow di)
      rows.foldl (tableRowStep osTbl wapTbl volIdx locIdx) d

/-! ## Page processing and finalization -/

/-- Identifier normalization (lines 70–72): strip non-digits, keep the
last 10 digits when at least 10 are present, otherwise keep them all. -/
def normalizeMobile (raw : List Char) : List Char :=
  let digits := raw.filter Char.isDigit
  if 10 ≤ digits.length then digits.drop (digits.length - 10) else digits

/-- Lookup in the insertion-ordered aggregate map. -/
def mapLookup (m : List (String × SummaryRec)) (k : String) : Option SummaryRec :=
  (m.find? (fun q => q.1 = k)).map (·.2)

/-- Store into the aggregate map: update in place, or append a new key at
the end (Python dicts preserve insertion order). -/
def mapStore (m : List (String × SummaryRec)) (k : String) (v : SummaryRec) :
    List (String × SummaryRec) :=
  if (m.find? (fun q => q.1 = k)).isSome then
    m.map fun q => if q.1 = k then (k, v) else q
  else m ++ [(k, v)]

/-- One page of `parse_telstra_pdf` (lines 61–210): the page belongs to
the mobile of the first header match anywhere in its text (pages without
one are skipped); every line and every table of the page updates that one
record, which accumulates across pages under the same normalized key. -/
def processPage (m : List (String × SummaryRec)) (p : Page) : List (String × SummaryRec) :=
  let text := p.text.data
  match reSearch summaryHeaderRE text with
  | none => m
  | some caps =>
    let mobile := String.mk (normalizeMobile ((capGet caps 1).getD []))
    let rec0 := (mapLookup m mobile).getD initRec
    let lines := (pySplitLines text).map pyRstrip
    let rec1 := lines.foldl processLine rec0
    let rec2 := p.tables.foldl (fun r tbl => processTable r (tbl.map (·.map (·.data)))) rec1
    mapStore m mobile rec2

/-- One row of the detailed-summary output table (lines 223–240). -/
structure SummaryRow where
  mobileNumber : String
  natDirectCalls : Nat
  smsOriginated : Nat
  enhancedSms : Nat
  callDiversionCalls : Nat
  callsMadeOverseas : Nat
  callsReceivedOverseas : Nat
  overseasDataSessions : Nat
  totCallEx : ℚ
  totCallInc : ℚ
  totSvcEx : ℚ
  totSvcInc : ℚ
  wapVolumeKB : Nat
  overseasCountriesStr : String
  totalSpendEx : ℚ
  totalSpendInc : ℚ
deriving DecidableEq, Repr

/-- Build the output row of one aggregate record (lines 214–240). -/
def buildRow (mobile : String) (d : SummaryRec) : SummaryRow :=
  { mobileNumber := mobile
    natDirectCalls := d.natDirectCalls
    smsOriginated := d.smsOriginated
    enhancedSms := d.enhancedSms
    callDiversionCalls := d.callDiversionCalls
    callsMadeOverseas := d.callsMadeOverseas
    callsReceivedOverseas := d.callsReceivedOverseas
    overseasDataSessions := d.overseasDataSessions
    totCallEx := d.totCallEx
    totCallInc := d.totCallInc
    totSvcEx := d.totSvcEx
    totSvcInc := d.totSvcInc
    wapVolumeKB := d.wapVolumeKB
    overseasCountriesStr :=
      if d.overseasCountries.isEmpty then ""
      else String.intercalate ", " (d.overseasCountries.insertionSort (· ≤ ·))
    totalSpendEx := d.totCallEx + d.totSvcEx
    totalSpendInc := d.totCallInc + d.totSvcInc }

/-- The pandas sort key of line 246: by (Mobile Number, Total Spend per
Mobile (Incl GST)), both ascending. -/
def rowLE (a b : SummaryRow) : Prop :=
  a.mobileNumber < b.mobileNumber ∨
    (a.mobileNumber = b.mobileNumber ∧ a.totalSpendInc ≤ b.totalSpendInc)

instance : DecidableRel rowLE := fun _ _ =>
  inferInstanceAs (Decidable (_ ∨ _))

/-- `drop_duplicates(subset=["Mobile Number"], keep="last")` (line 247):
keep a row exactly when no later row shares its identifier. -/
def dedupKeepLast : List SummaryRow → List SummaryRow
  | [] => []
  | r :: rest =>
    if rest.any (fun s => s.mobileNumber = r.mobileNumber) then dedupKeepLast rest
    else r :: dedupKeepLast rest

/-- Lines 244–248: sort the rows by (identifier, tax-inclusive total)
ascending (pandas multi-key sort, stable), then deduplicate by identifier
keeping the last occurrence. -/
def finalizeRows (rows : List SummaryRow) : List SummaryRow :=
  if rows.isEmpty then rows
  else dedupKeepLast (rows.insertionSort rowLE)

/-- `parse_telstra_pdf` (src/pages/3_Telstra_Mobile_Summary.py lines
32–250). -/
def parse_telstra_pdf (doc : List Page) : List SummaryRow :=
  let m := doc.foldl processPage []
  finalizeRows (m.map fun q => buildRow q.1 q.2)

/-! ## Language semantics of the regex AST -/

/-- `Sem re w`: the pattern matches exactly the character list `w`
(for `eol`, the surrounding-context condition is checked by the engine;
the consumed word is empty). -/
inductive Sem : RE → List Char → Prop where
  | eps : Sem .eps []
  | cls {p : Char → Bool} {c : Char} : p c = true → Sem (.cls p) [c]
  | seq {a b : RE} {u v : List Char} : Sem a u → Sem b v → Sem (.seq a b) (u ++ v)
  | altL {a b : RE} {u : List Char} : Sem a u → Sem (.alt a b) u
  | altR {a b : RE} {u : List Char} : Sem b u → Sem (.alt a b) u
  | starGNil {a : RE} : Sem (.starG a) []
  | starGCons {a : RE} {u v : List Char} :
      Sem a u → Sem (.starG a) v → Sem (.starG a) (u ++ v)
  | starLNil {a : RE} : Sem (.starL a) []
  | starLCons {a : RE} {u v : List Char} :
      Sem a u → Sem (.starL a) v → Sem (.starL a) (u ++ v)
  | grp {k : Nat} {a : RE} {u : List Char} : Sem a u → Sem (.grp k a) u
  | eol : Sem .eol []

/-- `CapSem re k w`: in some match of `re`, group `k` captures `w`. -/
inductive CapSem : RE → Nat → List Char → Prop where
  | seqL {a b : RE} {k : Nat} {u : List Char} : CapSem a k u → CapSem (.seq a b) k u
  | seqR {a b : RE} {k : Nat} {u : List Char} : CapSem b k u → CapSem (.seq a b) k u
  | altL {a b : RE} {k : Nat} {u : List Char} : CapSem a k u → CapSem (.alt a b) k u
  | altR {a b : RE} {k : Nat} {u : List Char} : CapSem b k u → CapSem (.alt a b) k u
  | starG {a : RE} {k : Nat} {u : List Char} : CapSem a k u → CapSem (.starG a) k u
  | starL {a : RE} {k : Nat} {u : List Char} : CapSem a k u → CapSem (.starL a) k u
  | grpSelf {k : Nat} {a : RE} {u : List Char} : Sem a u → CapSem (.grp k a) k u
  | grpInner {k m : Nat} {a : RE} {u : List Char} : CapSem a m u → CapSem (.grp k a) m u

/-- Numbers of the capturing groups occurring in a pattern. -/
def groupIds : RE → List Nat
  | .eps => []
  | .cls _ => []
  | .seq a b => groupIds a ++ groupIds b
  | .alt a b => groupIds a ++ groupIds b
  | .starG a => groupIds a
  | .starL a => groupIds a
  | .grp k a => k :: groupIds a
  | .eol => []

/-- Whether group `k` participates in every match of the pattern. -/
def mustCapture (k : Nat) : RE → Bool
  | .eps => false
  | .cls _ => false
  | .seq a b => mustCapture k a || mustCapture k b
  | .alt a b => mustCapture k a && mustCapture k b
  | .starG _ => false
  | .starL _ => false
  | .grp m a => decide (k = m) || mustCapture k a
  | .eol => false

/-! ## Concrete documents and rows used in scenarios -/

/-- Spec §8 scenario: one Optus line, no override anywhere. -/
def optusScenarioDoc : List Page := [⟨"0403061668 on $60 Business Mobile Plus M2M", []⟩]

/-- An Optus document with a later "Total Monthly Charges" override. -/
def optusOverrideDoc : List Page :=
  [⟨"0403061668 on $60 Business Mobile Plus M2M", []⟩,
   ⟨"Total Monthly Charges $49.90", []⟩]

/-- A Vodafone document with one charge line. -/
def vodaScenarioDoc : List Page := [⟨"0403061668 on $55.00 RedPlan Extra", []⟩]

/-- C3 scenario: the same subscriber on two pages, a count metric twice
and a Total-call-charges line twice. -/
def c3doc : List Page :=
  [⟨"Mobile 0400 936 296\nNational Direct 3 calls\nTotal call charges $10.00 $11.00", []⟩,
   ⟨"Mobile 0400 936 296\nNational Direct 7 calls\nTotal call charges $5.00 $5.50", []⟩]

/-- C4 counterexample: one page carrying two identifier headers, with a
metric line after the second header. -/
def c4doc : List Page :=
  [⟨"Mobile 0400 111 222\nNational Direct 3 calls\nMobile 0400 333 444\nNational Direct 9 calls", []⟩]

/-- C5 counterexample: a metric line after an "Itemised call details"
marker line. -/
def c5doc : List Page :=
  [⟨"Mobile 0400 111 222\nItemised call details\nNational Direct 5 calls", []⟩]

/-- C6 counterexample: a detailed-mode header carrying only eight digits. -/
def c6docA : List Page := [⟨"Mobile 1234 5678", []⟩]

/-- C6 counterexample: a Telstra simple-mode header whose separator is a
tab, which `replace(" ", "")` does not remove. -/
def c6docB : List Page :=
  [⟨"Mobile 0400\t111 222\nBusiness Mobile Plan Basic $63.64 $70.00", []⟩]

/-- C9 witness: a document with none of the carrier markers. -/
def unknownDoc : List Page := [⟨"hello world", []⟩]

/-- C1 witness rows: same identifier, different tax-inclusive totals. -/
def w1RowA : SummaryRow := ⟨"0400000001", 0, 0, 0, 0, 0, 0, 0, 0, 0, 0, 0, 0, "", 0, 10⟩

/-- See `w1RowA`. -/
def w1RowB : SummaryRow := ⟨"0400000001", 0, 0, 0, 0, 0, 0, 0, 0, 0, 0, 0, 0, "", 0, 20⟩

/-- C7 witness: a table with a description column whose rows mention
neither WAP/internet nor overseas data usage. -/
def plainTable : List (List (List Char)) :=
  [["Description".data, "Vol (KB)".data, "Location".data],
   ["Standard call".data, "123".data, "Sydney".data]]

/-- C10 witness: headers lack a description column while the data rows
carry the overseas literals and a usable volume column. -/
def noDescTable : List (List (List Char)) :=
  [["Foo".data, "Vol (KB)".data, "Location".data],
   ["Data usage overseas (GST FREE)".data, "123".data, "Fiji".data]]

/-! ## Laws of the finalizer (lines 244–248) -/

instance : IsTotal SummaryRow rowLE := by
  constructor
  intro a b
  rcases lt_trichotomy a.mobileNumber b.mobileNumber with h | h | h
  · exact Or.inl (Or.inl h)
  · rcases le_total a.totalSpendInc b.totalSpendInc with h2 | h2
    · exact Or.inl (Or.inr ⟨h, h2⟩)
    · exact Or.inr (Or.inr ⟨h.symm, h2⟩)
  · exact Or.inr (Or.inl h)

instance : IsTrans SummaryRow rowLE := by
  constructor
  intro a b c hab hbc
  rcases hab with h1 | ⟨h1, h1q⟩
  · rcases hbc with h2 | ⟨h2, _⟩
    · exact Or.inl (h1.trans h2)
    · exact Or.inl (h2 ▸ h1)
  · rcases hbc with h2 | ⟨h2, h2q⟩
    · exact Or.inl (h1 ▸ h2)
    · exact Or.inr ⟨h1.trans h2, h1q.trans h2q⟩

/-- When two rows share an identifier, the sort order compares the
tax-inclusive totals. -/
theorem rowLE_inc {a b : SummaryRow} (h : rowLE a b)
    (hm : a.mobileNumber = b.mobileNumber) :
    a.totalSpendInc ≤ b.totalSpendInc := by
  rcases h with h | ⟨_, h⟩
  · exact absurd (hm ▸ h) (lt_irrefl _)
  · exact h

/-- What `drop_duplicates(keep="last")` leaves for one identifier: exactly
the last row carrying it, when there is one. -/
theorem dedupKeepLast_filter (x : String) :
    ∀ l : List SummaryRow,
      (dedupKeepLast l).filter (fun r => r.mobileNumber = x) =
        ((l.filter (fun r => r.mobileNumber = x)).getLast?).toList := by
  intro l
  induction l with
  | nil => simp [dedupKeepLast]
  | cons r rest ih =>
    by_cases hdup : rest.any (fun s => s.mobileNumber = r.mobileNumber)
    · rw [dedupKeepLast, if_pos hdup]
      by_cases hx : r.mobileNumber = x
      · have hne : rest.filter (fun s => s.mobileNumber = x) ≠ [] := by
          rcases List.any_eq_true.mp hdup with ⟨s, hs, hsm⟩
          have : s ∈ rest.filter (fun s => s.mobileNumber = x) :=
            List.mem_filter.mpr ⟨hs, by simp [of_decide_eq_true hsm, hx]⟩
          exact List.ne_nil_of_mem this
        rw [ih, List.filter_cons_of_pos (by simp [hx])]
        rcases List.exists_cons_of_ne_nil hne with ⟨y, ys, hys⟩
        rw [hys, List.getLast?_cons_cons]
      · rw [ih, List.filter_cons_of_neg (by simp [hx])]
    · rw [dedupKeepLast, if_neg hdup]
      by_cases hx : r.mobileNumber = x
      · have hrest : rest.filter (fun s => s.mobileNumber = x) = [] := by
          rw [List.filter_eq_nil_iff]
          intro s hs
          simp only [decide_eq_true_eq]
          intro hsx
          exact (List.any_eq_true.not.mp hdup) ⟨s, hs, by simp [hsx, hx]⟩
        have hded : (dedupKeepLast rest).filter (fun r => r.mobileNumber = x) = [] := by
          rw [ih, hrest]
          rfl
        rw [List.filter_cons_of_pos (by simp [hx]),
          List.filter_cons_of_pos (by simp [hx]), hded, hrest]
        rfl
      · rw [List.filter_cons_of_neg (by simp [hx]),
          List.filter_cons_of_neg (by simp [hx]), ih]

/-- A list permuting a two-element list is one of its two arrangements. -/
theorem perm_two {α : Type} {l : List α} {a b : α} (h : l.Perm [a, b]) :
    l = [a, b] ∨ l = [b, a] := by
  match l, h.length_eq with
  | [x, y], _ =>
    by_cases hx : x = a
    · subst hx
      have : [y].Perm [b] := h.cons_inv
      exact Or.inl (by rw [List.perm_singleton.mp this])
    · have hxm : x ∈ [a, b] := h.subset (List.mem_cons_self x [y])
      have hxb : x = b := by
        rcases List.mem_cons.mp hxm with h1 | h1
        · exact absurd h1 hx
        · simpa using h1
      have h2 : (x :: [y]).Perm (b :: [a]) := h.trans (List.Perm.swap b a [])
      rw [hxb] at h2
      exact Or.inr (by rw [hxb, List.perm_singleton.mp h2.cons_inv])

/-- **C1.** In detailed-summary mode, when the candidate rows contain two
rows with the same identifier and differing tax-inclusive totals, the
finalized table keeps exactly one row for that identifier — the one with
the greater tax-inclusive total; the rows are sorted by (identifier,
tax-inclusive total) ascending before this deduplication. -/
theorem c1_dedup_keeps_max (rows : List SummaryRow) (x : String) (r1 r2 : SummaryRow)
    (hf : rows.filter (fun r => r.mobileNumber = x) = [r1, r2])
    (hne : r1.totalSpendInc ≠ r2.totalSpendInc) :
    (finalizeRows rows).filter (fun r => r.mobileNumber = x) =
      [if r1.totalSpendInc < r2.totalSpendInc then r2 else r1] ∧
    (rows.insertionSort rowLE).Pairwise rowLE ∧
    finalizeRows rows = dedupKeepLast (rows.insertionSort rowLE) := by
  have hrows : ¬rows.isEmpty := by
    intro hempty
    rw [List.isEmpty_iff.mp hempty] at hf
    simp at hf
  have hfin : finalizeRows rows = dedupKeepLast (rows.insertionSort rowLE) := by
    rw [finalizeRows, if_neg hrows]
  have hsorted : (rows.insertionSort rowLE).Pairwise rowLE :=
    List.sorted_insertionSort rowLE rows
  refine ⟨?_, hsorted, hfin⟩
  have hperm : (rows.insertionSort rowLE).Perm rows := List.perm_insertionSort rowLE rows
  have hfperm :
      ((rows.insertionSort rowLE).filter (fun r => r.mobileNumber = x)).Perm [r1, r2] := by
    have := hperm.filter (fun r => r.mobileNumber = x)
    rwa [hf] at this
  have hfsorted :
      ((rows.insertionSort rowLE).filter (fun r => r.mobileNumber = x)).Pairwise rowLE :=
    hsorted.sublist (List.filter_sublist _)
  have hm1 : r1.mobileNumber = x := by
    have : r1 ∈ rows.filter (fun r => r.mobileNumber = x) := by
      rw [hf]; exact List.mem_cons_self _ _
    simpa using (List.mem_filter.mp this).2
  have hm2 : r2.mobileNumber = x := by
    have : r2 ∈ rows.filter (fun r => r.mobileNumber = x) := by
      rw [hf]; simp
    simpa using (List.mem_filter.mp this).2
  rw [hfin, dedupKeepLast_filter]
  rcases perm_two hfperm with hcase | hcase
  · have hle : rowLE r1 r2 := by
      have := hfsorted
      rw [hcase] at this
      exact (List.pairwise_cons.mp this).1 r2 (List.mem_cons_self _ _)
    have hlt : r1.totalSpendInc < r2.totalSpendInc :=
      lt_of_le_of_ne (rowLE_inc hle (hm1.trans hm2.symm)) hne
    rw [hcase, if_pos hlt]
    rfl
  · have hle : rowLE r2 r1 := by
      have := hfsorted
      rw [hcase] at this
      exact (List.pairwise_cons.mp this).1 r1 (List.mem_cons_self _ _)
    have hlt : r2.totalSpendInc < r1.totalSpendInc :=
      lt_of_le_of_ne (rowLE_inc hle (hm2.trans hm1.symm)) (Ne.symm hne)
    rw [hcase, if_neg (not_lt_of_gt hlt)]
    rfl

/-- The computable floor used by the rounding model agrees with
Mathlib's floor on `ℚ`. -/
theorem ratFloor_eq_floor (q : ℚ) : ratFloor q = ⌊q⌋ := by
  rw [Rat.floor_def, ratFloor]
  rfl

/-- Witness for C1 with two concrete rows sharing an identifier. -/
theorem c1_witness :
    (finalizeRows [w1RowA, w1RowB]).filter
        (fun r => r.mobileNumber = "0400000001") =
      [if w1RowA.totalSpendInc < w1RowB.totalSpendInc then w1RowB else w1RowA] :=
  (c1_dedup_keeps_max [w1RowA, w1RowB] "0400000001" w1RowA w1RowB
    (by decide) (by decide)).1

/-- The rounding model in the floor-based form: round to the nearer
integer, ties to the even neighbour. -/
theorem roundHalfEven_eq_floor_form (q : ℚ) :
    roundHalfEven q =
      if q - ⌊q⌋ < 1 / 2 then ⌊q⌋
      else if 1 / 2 < q - ⌊q⌋ then ⌊q⌋ + 1
      else if Even ⌊q⌋ then ⌊q⌋ else ⌊q⌋ + 1 := by
  have hden : (0 : ℚ) < (q.den : ℚ) := by
    exact_mod_cast q.pos
  have hqden : q * (q.den : ℚ) = (q.num : ℚ) := by
    nth_rewrite 1 [← Rat.num_div_den q]
    rw [div_mul_cancel₀]
    exact ne_of_gt hden
  have hfrac : q - (⌊q⌋ : ℚ) = ((q.num - ⌊q⌋ * q.den : ℤ) : ℚ) / (q.den : ℚ) := by
    rw [eq_div_iff (ne_of_gt hden), sub_mul, hqden]
    push_cast
    ring
  have h1 : (2 * (q.num - ⌊q⌋ * q.den) < (q.den : ℤ)) ↔ (q - ⌊q⌋ < 1 / 2) := by
    rw [hfrac, div_lt_div_iff₀ hden (by norm_num : (0 : ℚ) < 2)]
    rw [one_mul, mul_comm]
    exact_mod_cast Iff.rfl
  have h2 : ((q.den : ℤ) < 2 * (q.num - ⌊q⌋ * q.den)) ↔ (1 / 2 < q - ⌊q⌋) := by
    rw [hfrac, div_lt_div_iff₀ (by norm_num : (0 : ℚ) < 2) hden]
    rw [one_mul, mul_comm]
    exact_mod_cast Iff.rfl
  have h3 : (⌊q⌋ % 2 = 0) ↔ Even ⌊q⌋ := Int.even_iff.symm
  rw [roundHalfEven, ratFloor_eq_floor]
  rw [if_congr h1 rfl rfl, if_congr h2 rfl rfl, if_congr h3 rfl rfl]

/-! ## Soundness of the regex engine -/

/-- Reading a capture after `capSet`. -/
theorem capGet_capSet (m : Caps) (k0 k : Nat) (t : List Char) :
    capGet (capSet m k0 t) k = if k0 = k then some t else capGet m k := by
  by_cases h : k0 = k
  · simp [capGet, capSet, List.find?, h]
  · simp [capGet, capSet, List.find?, h]

/-- The empty capture environment holds nothing. -/
theorem capGet_nil (k : Nat) : capGet ([] : Caps) k = none := rfl

/-- The head of a list is a member. -/
theorem head?_mem {α : Type} {l : List α} {a : α} (h : l.head? = some a) : a ∈ l := by
  cases l with
  | nil => simp at h
  | cons x xs =>
    simp only [List.head?] at h
    injection h with h
    rw [h]
    exact List.mem_cons_self _ _

/-- Every engine result consumed a word of the pattern's language, and
every capture it reports either predates the call or is allowed by the
capture semantics. -/
theorem runRE_spec :
    ∀ fuel re s caps r, r ∈ runRE fuel re s caps →
      (∃ t, s = t ++ r.1 ∧ Sem re t) ∧
      (∀ k v, capGet r.2 k = some v → capGet caps k = some v ∨ CapSem re k v) := by
  intro fuel
  induction fuel with
  | zero =>
    intro re s caps r hr
    simp [runRE] at hr
  | succ n ih =>
    intro re s caps r hr
    cases re with
    | eps =>
      simp only [runRE, List.mem_singleton] at hr
      subst hr
      exact ⟨⟨[], rfl, Sem.eps⟩, fun k v h => Or.inl h⟩
    | cls p =>
      cases s with
      | nil => simp [runRE] at hr
      | cons c t =>
        simp only [runRE] at hr
        by_cases hp : p c
        · rw [if_pos hp] at hr
          simp only [List.mem_singleton] at hr
          subst hr
          exact ⟨⟨[c], rfl, Sem.cls hp⟩, fun k v h => Or.inl h⟩
        · rw [if_neg hp] at hr
          simp at hr
    | seq a b =>
      simp only [runRE, List.mem_flatMap] at hr
      obtain ⟨r1, hr1, hr2⟩ := hr
      obtain ⟨⟨t1, hs1, sem1⟩, hc1⟩ := ih a s caps r1 hr1
      obtain ⟨⟨t2, hs2, sem2⟩, hc2⟩ := ih b r1.1 r1.2 r hr2
      refine ⟨⟨t1 ++ t2, ?_, Sem.seq sem1 sem2⟩, ?_⟩
      · rw [hs1, hs2, List.append_assoc]
      · intro k v h
        rcases hc2 k v h with h2 | h2
        · rcases hc1 k v h2 with h1 | h1
          · exact Or.inl h1
          · exact Or.inr (CapSem.seqL h1)
        · exact Or.inr (CapSem.seqR h2)
    | alt a b =>
      simp only [runRE, List.mem_append] at hr
      rcases hr with hr | hr
      · obtain ⟨⟨t, hs, sem⟩, hc⟩ := ih a s caps r hr
        exact ⟨⟨t, hs, Sem.altL sem⟩, fun k v h => (hc k v h).imp id CapSem.altL⟩
      · obtain ⟨⟨t, hs, sem⟩, hc⟩ := ih b s caps r hr
        exact ⟨⟨t, hs, Sem.altR sem⟩, fun k v h => (hc k v h).imp id CapSem.altR⟩
    | starG a =>
      simp only [runRE, List.mem_append, List.mem_flatMap, List.mem_singleton] at hr
      rcases hr with ⟨r1, hr1, hr2⟩ | hr
      · by_cases hlt : r1.1.length < s.length
        · rw [if_pos hlt] at hr2
          obtain ⟨⟨t1, hs1, sem1⟩, hc1⟩ := ih a s caps r1 hr1
          obtain ⟨⟨t2, hs2, sem2⟩, hc2⟩ := ih (.starG a) r1.1 r1.2 r hr2
          refine ⟨⟨t1 ++ t2, by rw [hs1, hs2, List.append_assoc],
            Sem.starGCons sem1 sem2⟩, ?_⟩
          intro k v h
          rcases hc2 k v h with h2 | h2
          · rcases hc1 k v h2 with h1 | h1
            · exact Or.inl h1
            · exact Or.inr (CapSem.starG h1)
          · exact Or.inr h2
        · rw [if_neg hlt] at hr2
          simp at hr2
      · subst hr
        exact ⟨⟨[], rfl, Sem.starGNil⟩, fun k v h => Or.inl h⟩
    | starL a =>
      simp only [runRE, List.mem_cons, List.mem_flatMap] at hr
      rcases hr with hr | ⟨r1, hr1, hr2⟩
      · subst hr
        exact ⟨⟨[], rfl, Sem.starLNil⟩, fun k v h => Or.inl h⟩
      · by_cases hlt : r1.1.length < s.length
        · rw [if_pos hlt] at hr2
          obtain ⟨⟨t1, hs1, sem1⟩, hc1⟩ := ih a s caps r1 hr1
          obtain ⟨⟨t2, hs2, sem2⟩, hc2⟩ := ih (.starL a) r1.1 r1.2 r hr2
          refine ⟨⟨t1 ++ t2, by rw [hs1, hs2, List.append_assoc],
            Sem.starLCons sem1 sem2⟩, ?_⟩
          intro k v h
          rcases hc2 k v h with h2 | h2
          · rcases hc1 k v h2 with h1 | h1
            · exact Or.inl h1
            · exact Or.inr (CapSem.starL h1)
          · exact Or.inr h2
        · rw [if_neg hlt] at hr2
          simp at hr2
    | grp k0 a =>
      simp only [runRE, List.mem_map] at hr
      obtain ⟨r1, hr1, hreq⟩ := hr
      obtain ⟨⟨t, hs, sem⟩, hc⟩ := ih a s caps r1 hr1
      have htake : s.take (s.length - r1.1.length) = t := by
        rw [hs, List.length_append, Nat.add_sub_cancel, List.take_left]
      refine ⟨⟨t, by rw [← hreq]; exact hs, Sem.grp sem⟩, ?_⟩
      intro k v h
      rw [← hreq] at h
      simp only at h
      rw [capGet_capSet, htake] at h
      by_cases hk : k0 = k
      · rw [if_pos hk] at h
        injection h with h
        subst hk
        rw [← h]
        exact Or.inr (CapSem.grpSelf sem)
      · rw [if_neg hk] at h
        rcases hc k v h with h1 | h1
        · exact Or.inl h1
        · exact Or.inr (CapSem.grpInner h1)
    | eol =>
      simp only [runRE] at hr
      by_cases hs : s = [] ∨ s = ['\n']
      · rw [if_pos hs] at hr
        simp only [List.mem_singleton] at hr
        subst hr
        exact ⟨⟨[], rfl, Sem.eol⟩, fun k v h => Or.inl h⟩
      · rw [if_neg hs] at hr
        simp at hr

/-- Groups that must participate are set in every engine result. -/
theorem runRE_mustCapture (k : Nat) :
    ∀ fuel re s caps r, r ∈ runRE fuel re s caps →
      mustCapture k re = true ∨ (capGet caps k).isSome = true →
      (capGet r.2 k).isSome = true := by
  intro fuel
  induction fuel with
  | zero =>
    intro re s caps r hr
    simp [runRE] at hr
  | succ n ih =>
    intro re s caps r hr hmust
    cases re with
    | eps =>
      simp only [runRE, List.mem_singleton] at hr
      subst hr
      rcases hmust with h | h
      · simp [mustCapture] at h
      · exact h
    | cls p =>
      cases s with
      | nil => simp [runRE] at hr
      | cons c t =>
        simp only [runRE] at hr
        by_cases hp : p c
        · rw [if_pos hp] at hr
          simp only [List.mem_singleton] at hr
          subst hr
          rcases hmust with h | h
          · simp [mustCapture] at h
          · exact h
        · rw [if_neg hp] at hr
          simp at hr
    | seq a b =>
      simp only [runRE, List.mem_flatMap] at hr
      obtain ⟨r1, hr1, hr2⟩ := hr
      rcases hmust with h | h
      · simp only [mustCapture, Bool.or_eq_true] at h
        rcases h with h | h
        · exact ih b r1.1 r1.2 r hr2 (Or.inr (ih a s caps r1 hr1 (Or.inl h)))
        · exact ih b r1.1 r1.2 r hr2 (Or.inl h)
      · exact ih b r1.1 r1.2 r hr2 (Or.inr (ih a s caps r1 hr1 (Or.inr h)))
    | alt a b =>
      simp only [runRE, List.mem_append] at hr
      rcases hr with hr | hr
      · rcases hmust with h | h
        · simp only [mustCapture, Bool.and_eq_true] at h
          exact ih a s caps r hr (Or.inl h.1)
        · exact ih a s caps r hr (Or.inr h)
      · rcases hmust with h | h
        · simp only [mustCapture, Bool.and_eq_true] at h
          exact ih b s caps r hr (Or.inl h.2)
        · exact ih b s caps r hr (Or.inr h)
    | starG a =>
      simp only [runRE, List.mem_append, List.mem_flatMap, List.mem_singleton] at hr
      have hcaps : (capGet caps k).isSome = true := by
        rcases hmust with h | h
        · simp [mustCapture] at h
        · exact h
      rcases hr with ⟨r1, hr1, hr2⟩ | hr
      · by_cases hlt : r1.1.length < s.length
        · rw [if_pos hlt] at hr2
          exact ih (.starG a) r1.1 r1.2 r hr2 (Or.inr (ih a s caps r1 hr1 (Or.inr hcaps)))
        · rw [if_neg hlt] at hr2
          simp at hr2
      · subst hr
        exact hcaps
    | starL a =>
      simp only [runRE, List.mem_cons, List.mem_flatMap] at hr
      have hcaps : (capGet caps k).isSome = true := by
        rcases hmust with h | h
        · simp [mustCapture] at h
        · exact h
      rcases hr with hr | ⟨r1, hr1, hr2⟩
      · subst hr
        exact hcaps
      · by_cases hlt : r1.1.length < s.length
        · rw [if_pos hlt] at hr2
          exact ih (.starL a) r1.1 r1.2 r hr2 (Or.inr (ih a s caps r1 hr1 (Or.inr hcaps)))
        · rw [if_neg hlt] at hr2
          simp at hr2
    | grp k0 a =>
      simp only [runRE, List.mem_map] at hr
      obtain ⟨r1, hr1, hreq⟩ := hr
      rw [← hreq]
      simp only
      rw [capGet_capSet]
      by_cases hk : k0 = k
      · rw [if_pos hk]
        rfl
      · rw [if_neg hk]
        rcases hmust with h | h
        · simp only [mustCapture, Bool.or_eq_true, decide_eq_true_eq] at h
          rcases h with h | h
          · exact absurd h.symm hk
          · exact ih a s caps r1 hr1 (Or.inl h)
        · exact ih a s caps r1 hr1 (Or.inr h)
    | eol =>
      simp only [runRE] at hr
      by_cases hs : s = [] ∨ s = ['\n']
      · rw [if_pos hs] at hr
        simp only [List.mem_singleton] at hr
        subst hr
        rcases hmust with h | h
        · simp [mustCapture] at h
        · exact h
      · rw [if_neg hs] at hr
        simp at hr

/-- Specialization to `reFirst` (fresh capture environment). -/
theorem reFirst_spec {re : RE} {s : List Char} {r : List Char × Caps}
    (h : reFirst re s = some r) :
    (∃ t, s = t ++ r.1 ∧ Sem re t) ∧
      ∀ k v, capGet r.2 k = some v → CapSem re k v := by
  have hmem : r ∈ runRE (fuelFor re s) re s [] := head?_mem h
  have hspec := runRE_spec (fuelFor re s) re s [] r hmem
  refine ⟨hspec.1, fun k v hv => ?_⟩
  rcases hspec.2 k v hv with h1 | h1
  · rw [capGet_nil] at h1
    exact absurd h1 (by simp)
  · exact h1

/-- Specialization of `runRE_mustCapture` to `reFirst`. -/
theorem reFirst_mustCapture {re : RE} {s : List Char} {r : List Char × Caps} (k : Nat)
    (h : reFirst re s = some r) (hmust : mustCapture k re = true) :
    (capGet r.2 k).isSome = true :=
  runRE_mustCapture k (fuelFor re s) re s [] r (head?_mem h) (Or.inl hmust)

/-- Captures reported by `reSearch` obey the capture semantics. -/
theorem reSearch_spec {re : RE} :
    ∀ {s : List Char} {caps : Caps}, reSearch re s = some caps →
      (∀ k v, capGet caps k = some v → CapSem re k v) ∧
      (∀ k, mustCapture k re = true → (capGet caps k).isSome = true) := by
  intro s
  induction s with
  | nil =>
    intro caps h
    simp only [reSearch, searchAux] at h
    cases hf : reFirst re [] with
    | none => rw [hf] at h; simp at h
    | some r0 =>
      rw [hf] at h
      simp only [Option.map_some'] at h
      injection h with h
      subst h
      exact ⟨(reFirst_spec hf).2, fun k hm => reFirst_mustCapture k hf hm⟩
  | cons c t ih =>
    intro caps h
    simp only [reSearch, searchAux] at h
    cases hf : reFirst re (c :: t) with
    | none =>
      rw [hf] at h
      exact ih h
    | some r0 =>
      rw [hf] at h
      simp only [Option.map_some'] at h
      injection h with h
      subst h
      exact ⟨(reFirst_spec hf).2, fun k hm => reFirst_mustCapture k hf hm⟩

/-- Captures reported by `findall` obey the capture semantics. -/
theorem findallAux_spec {re : RE} :
    ∀ n s caps, caps ∈ findallAux re n s →
      (∀ k v, capGet caps k = some v → CapSem re k v) ∧
      (∀ k, mustCapture k re = true → (capGet caps k).isSome = true) := by
  intro n
  induction n with
  | zero =>
    intro s caps h
    simp [findallAux] at h
  | succ n ih =>
    intro s caps h
    simp only [findallAux] at h
    cases hf : reFirst re s with
    | none =>
      rw [hf] at h
      cases s with
      | nil => simp at h
      | cons c t => exact ih t caps h
    | some r0 =>
      obtain ⟨s0, c0⟩ := r0
      rw [hf] at h
      simp only [List.mem_cons] at h
      rcases h with h | h
      · subst h
        exact ⟨(reFirst_spec hf).2, fun k hm => reFirst_mustCapture k hf hm⟩
      · by_cases hlt : s0.length < s.length
        · rw [if_pos hlt] at h
          exact ih s0 caps h
        · rw [if_neg hlt] at h
          cases s with
          | nil => simp at h
          | cons c t => exact ih t caps h

/-- Captures reported by `findall` obey the capture semantics. -/
theorem findall_spec {re : RE} {s : List Char} {caps : Caps}
    (h : caps ∈ findall re s) :
    (∀ k v, capGet caps k = some v → CapSem re k v) ∧
      (∀ k, mustCapture k re = true → (capGet caps k).isSome = true) :=
  findallAux_spec (s.length + 1) s caps h

/-! ## Inversion of the match semantics on the concrete patterns -/

/-- Inversion for `eps`. -/
theorem sem_eps_inv {w : List Char} (h : Sem .eps w) : w = [] := by
  cases h
  rfl

/-- Inversion for character classes. -/
theorem sem_cls_inv {p : Char → Bool} {w : List Char} (h : Sem (.cls p) w) :
    ∃ c, w = [c] ∧ p c = true := by
  cases h with
  | cls hp => exact ⟨_, rfl, hp⟩

/-- Inversion for concatenation. -/
theorem sem_seq_inv {a b : RE} {w : List Char} (h : Sem (.seq a b) w) :
    ∃ u v, w = u ++ v ∧ Sem a u ∧ Sem b v := by
  cases h with
  | seq hu hv => exact ⟨_, _, rfl, hu, hv⟩

/-- Inversion for alternation. -/
theorem sem_alt_inv {a b : RE} {w : List Char} (h : Sem (.alt a b) w) :
    Sem a w ∨ Sem b w := by
  cases h with
  | altL h => exact Or.inl h
  | altR h => exact Or.inr h

/-- Inversion for groups. -/
theorem sem_grp_inv {k : Nat} {a : RE} {w : List Char} (h : Sem (.grp k a) w) :
    Sem a w := by
  cases h with
  | grp h => exact h

/-- Inversion for the greedy option combinator. -/
theorem sem_optG_inv {r : RE} {w : List Char} (h : Sem (optG r) w) :
    Sem r w ∨ w = [] := by
  rcases sem_alt_inv h with h | h
  · exact Or.inl h
  · exact Or.inr (sem_eps_inv h)

/-- A word of `r{n}` for a character class has `n` characters, all in the
class. -/
theorem sem_repN_cls (p : Char → Bool) :
    ∀ (n : Nat) (t : List Char), Sem (repN n (.cls p)) t →
      t.length = n ∧ ∀ c ∈ t, p c = true := by
  intro n
  induction n with
  | zero =>
    intro t h
    rw [sem_eps_inv h]
    exact ⟨rfl, by simp⟩
  | succ m ih =>
    intro t h
    obtain ⟨u, v, rfl, hu, hv⟩ := sem_seq_inv h
    obtain ⟨c, rfl, hp⟩ := sem_cls_inv hu
    obtain ⟨hlen, hall⟩ := ih v hv
    refine ⟨by simp [hlen], ?_⟩
    intro d hd
    rcases List.mem_cons.mp hd with rfl | hd
    · exact hp
    · exact hall d hd

/-- Every capture number reported by the capture semantics occurs in the
pattern. -/
theorem capSem_groupIds {re : RE} {k : Nat} {u : List Char} (h : CapSem re k u) :
    k ∈ groupIds re := by
  induction h with
  | seqL _ ih => exact List.mem_append.mpr (Or.inl ih)
  | seqR _ ih => exact List.mem_append.mpr (Or.inr ih)
  | altL _ ih => exact List.mem_append.mpr (Or.inl ih)
  | altR _ ih => exact List.mem_append.mpr (Or.inr ih)
  | starG _ ih => exact ih
  | starL _ ih => exact ih
  | grpSelf _ => exact List.mem_cons_self _ _
  | grpInner _ ih => exact List.mem_cons_of_mem _ ih

/-- Group 1 of the Optus line pattern is its `04\d{8}` body. -/
theorem capSem_optusLine_1 {t : List Char} (h : CapSem optusLineRE 1 t) :
    Sem num04Body t := by
  unfold optusLineRE at h
  cases h with
  | seqL h1 =>
    cases h1 with
    | grpSelf hsem => exact hsem
    | grpInner hin => exact absurd (capSem_groupIds hin) (by decide)
  | seqR h1 => exact absurd (capSem_groupIds h1) (by decide)

/-- Group 1 of the Vodafone line pattern is its `04\d{8}` body. -/
theorem capSem_vodaLine_1 {t : List Char} (h : CapSem vodaLineRE 1 t) :
    Sem num04Body t := by
  unfold vodaLineRE at h
  cases h with
  | seqL h1 =>
    cases h1 with
    | grpSelf hsem => exact hsem
    | grpInner hin => exact absurd (capSem_groupIds hin) (by decide)
  | seqR h1 => exact absurd (capSem_groupIds h1) (by decide)

/-- Group 1 of the Telstra header pattern is its number body. -/
theorem capSem_telstraMobile_1 {t : List Char} (h : CapSem telstraMobileRE 1 t) :
    Sem telstraNumBody t := by
  unfold telstraMobileRE at h
  cases h with
  | seqL h1 => exact absurd (capSem_groupIds h1) (by decide)
  | seqR h1 =>
    cases h1 with
    | grpSelf hsem => exact hsem
    | grpInner hin => exact absurd (capSem_groupIds hin) (by decide)

/-- A word of `04\d{8}` is ten digits. -/
theorem sem_num04 {t : List Char} (h : Sem num04Body t) :
    t.length = 10 ∧ t.all Char.isDigit = true := by
  unfold num04Body at h
  obtain ⟨u1, v1, rfl, hu1, hv1⟩ := sem_seq_inv h
  obtain ⟨c0, rfl, hp0⟩ := sem_cls_inv hu1
  obtain ⟨u2, v2, rfl, hu2, hv2⟩ := sem_seq_inv hv1
  obtain ⟨c4, rfl, hp4⟩ := sem_cls_inv hu2
  obtain ⟨hlen, hall⟩ := sem_repN_cls Char.isDigit 8 v2 hv2
  have hc0 : c0 = '0' := of_decide_eq_true hp0
  have hc4 : c4 = '4' := of_decide_eq_true hp4
  subst hc0
  subst hc4
  constructor
  · simp [hlen]
  · simp only [List.cons_append, List.nil_append, List.all_cons, Bool.and_eq_true]
    refine ⟨rfl, rfl, ?_⟩
    rw [List.all_eq_true]
    exact hall

/-- Whitespace characters are not digits. -/
theorem pyIsSpace_not_digit {c : Char} (h : pyIsSpace c = true) :
    c.isDigit = false := by
  simp only [pyIsSpace, Bool.or_eq_true, decide_eq_true_eq] at h
  rcases h with ((((h | h) | h) | h) | h) | h <;> rw [h] <;> rfl

/-- Removing spaces does not change the digit characters of a string. -/
theorem filter_digit_removeSpace (t : List Char) :
    (removeChar ' ' t).filter Char.isDigit = t.filter Char.isDigit := by
  rw [removeChar, List.filter_filter]
  apply List.filter_congr
  intro c _
  cases hd : c.isDigit
  · simp
  · have : c ≠ ' ' := by
      intro hc
      rw [hc] at hd
      exact absurd hd (by decide)
    simp [this]

/-- A word of the Telstra number body `\d{4}\s?\d{3}\s?\d{3}` carries
exactly ten digit characters. -/
theorem sem_telstraNum {t : List Char} (h : Sem telstraNumBody t) :
    (t.filter Char.isDigit).length = 10 := by
  unfold telstraNumBody at h
  obtain ⟨u1, v1, rfl, hu1, hv1⟩ := sem_seq_inv h
  obtain ⟨s1, v2, rfl, hs1, hv2⟩ := sem_seq_inv hv1
  obtain ⟨u2, v3, rfl, hu2, hv3⟩ := sem_seq_inv hv2
  obtain ⟨s2, u3, rfl, hs2, hu3⟩ := sem_seq_inv hv3
  have hsp : ∀ {w : List Char}, Sem (optG spaceRE) w → w.filter Char.isDigit = [] := by
    intro w hw
    rcases sem_optG_inv hw with hw | rfl
    · obtain ⟨c, rfl, hp⟩ := sem_cls_inv hw
      simp [pyIsSpace_not_digit hp]
    · rfl
  have hd : ∀ {n : Nat} {w : List Char}, Sem (repN n digitRE) w →
      (w.filter Char.isDigit).length = n := by
    intro n w hw
    obtain ⟨hlen, hall⟩ := sem_repN_cls Char.isDigit n w hw
    rw [List.filter_eq_self.mpr hall, hlen]
  simp only [List.filter_append, List.length_append,
    hsp hs1, hsp hs2, hd hu1, hd hu2, hd hu3, List.length_nil]

/-! ## Row shape of the simple-mode parsers -/

/-- Rows produced by `optusMatchRows` all have the literal shape built at
src/app.py lines 65–70. -/
theorem optusMatchRows_forall (ft : List Char) (P : SimpleRow → Prop) :
    ∀ cl : List Caps,
      (∀ caps (v : ℚ), caps ∈ cl →
        optusSpend ft ((capGet caps 1).getD []) ((capGet caps 2).getD []) = some v →
        P ⟨String.mk ((capGet caps 1).getD []), String.mk (pyStrip ((capGet caps 3).getD [])),
           some (pyRound2 (v / (11 / 10))), some v⟩) →
      ∀ rows, optusMatchRows ft cl = some rows → ∀ r ∈ rows, P r := by
  intro cl
  induction cl with
  | nil =>
    intro _ rows h r hr
    simp only [optusMatchRows] at h
    injection h with h
    subst h
    simp at hr
  | cons caps rest ih =>
    intro hstep rows h r hr
    simp only [optusMatchRows] at h
    cases hsp : optusSpend ft ((capGet caps 1).getD []) ((capGet caps 2).getD []) with
    | none =>
      rw [hsp] at h
      simp at h
    | some v =>
      rw [hsp] at h
      cases hrest : optusMatchRows ft rest with
      | none =>
        rw [hrest] at h
        simp at h
      | some rs =>
        rw [hrest] at h
        simp only [Option.map_some'] at h
        injection h with h
        subst h
        rcases List.mem_cons.mp hr with rfl | hr
        · exact hstep caps v (List.mem_cons_self _ _) hsp
        · exact ih (fun c v hc hv => hstep c v (List.mem_cons_of_mem _ hc) hv) rs hrest r hr

/-- Lifts `optusMatchRows_forall` through the page loop. -/
theorem optusPages_forall (ft : List Char) (P : SimpleRow → Prop)
    (hstep : ∀ (s : List Char) caps (v : ℚ), caps ∈ findall optusLineRE s →
      optusSpend ft ((capGet caps 1).getD []) ((capGet caps 2).getD []) = some v →
      P ⟨String.mk ((capGet caps 1).getD []), String.mk (pyStrip ((capGet caps 3).getD [])),
         some (pyRound2 (v / (11 / 10))), some v⟩) :
    ∀ (ps : List Page) (rows : List SimpleRow), optusPages ft ps = some rows →
      ∀ r ∈ rows, P r := by
  intro ps
  induction ps with
  | nil =>
    intro rows h r hr
    simp only [optusPages] at h
    injection h with h
    subst h
    simp at hr
  | cons p pt ih =>
    intro rows h r hr
    simp only [optusPages] at h
    cases hempty : p.text.data.isEmpty with
    | true =>
      rw [if_pos hempty] at h
      exact ih rows h r hr
    | false =>
      rw [if_neg (by simp [hempty])] at h
      cases hm : optusMatchRows ft (findall optusLineRE p.text.data) with
      | none =>
        rw [hm] at h
        simp at h
      | some rs =>
        rw [hm] at h
        cases hrest : optusPages ft pt with
        | none =>
          rw [hrest] at h
          simp at h
        | some rest =>
          rw [hrest] at h
          simp only [Option.map_some'] at h
          injection h with h
          subst h
          rcases List.mem_append.mp hr with hr | hr
          · exact optusMatchRows_forall ft P _
              (fun c v hc hv => hstep _ c v hc hv) rs hm r hr
          · exact ih rest hrest r hr

/-- Rows produced by `vodaMatchRows` all have the literal shape built at
src/app.py lines 107–112. -/
theorem vodaMatchRows_forall (ft : List Char) (P : SimpleRow → Prop) :
    ∀ cl : List Caps,
      (∀ caps, caps ∈ cl →
        P ⟨String.mk ((capGet caps 1).getD []),
           String.mk (pyStrip ((capGet caps 3).getD [])),
           (vodaSpendIncl ft ((capGet caps 1).getD []) ((capGet caps 2).getD [])).map
             (fun v => pyRound2 (v / (11 / 10))),
           vodaSpendIncl ft ((capGet caps 1).getD []) ((capGet caps 2).getD [])⟩) →
      ∀ r ∈ vodaMatchRows ft cl, P r := by
  intro cl
  induction cl with
  | nil =>
    intro _ r hr
    simp [vodaMatchRows] at hr
  | cons caps rest ih =>
    intro hstep r hr
    simp only [vodaMatchRows] at hr
    rcases List.mem_cons.mp hr with rfl | hr
    · exact hstep caps (List.mem_cons_self _ _)
    · exact ih (fun c hc => hstep c (List.mem_cons_of_mem _ hc)) r hr

/-- Lifts `vodaMatchRows_forall` through the page loop. -/
theorem vodaPages_forall (ft : List Char) (P : SimpleRow → Prop)
    (hstep : ∀ (s : List Char) caps, caps ∈ findall vodaLineRE s →
      P ⟨String.mk ((capGet caps 1).getD []),
         String.mk (pyStrip ((capGet caps 3).getD [])),
         (vodaSpendIncl ft ((capGet caps 1).getD []) ((capGet caps 2).getD [])).map
           (fun v => pyRound2 (v / (11 / 10))),
         vodaSpendIncl ft ((capGet caps 1).getD []) ((capGet caps 2).getD [])⟩) :
    ∀ ps : List Page, ∀ r ∈ vodaPages ft ps, P r := by
  intro ps
  induction ps with
  | nil =>
    intro r hr
    simp [vodaPages] at hr
  | cons p pt ih =>
    intro r hr
    simp only [vodaPages] at hr
    cases hempty : p.text.data.isEmpty with
    | true =>
      rw [if_pos hempty] at hr
      exact ih r hr
    | false =>
      rw [if_neg (by simp [hempty])] at hr
      rcases List.mem_append.mp hr with hr | hr
      · exact vodaMatchRows_forall ft P _ (fun c hc => hstep _ c hc) r hr
      · exact ih r hr

/-- **C2.** For every output row of the Optus and Vodafone parsers, when
the tax-inclusive spend is present the tax-exclusive spend is
`round(incl / 1.1, 2)`; when the tax-inclusive spend is absent so is the
tax-exclusive one (for Optus an unparsable amount raises instead, so its
rows always carry both). -/
theorem c2_gst_derivation :
    (∀ (doc : List Page) (rows : List SimpleRow), parse_optus doc = some rows →
      ∀ r ∈ rows, ∃ v, r.spendInclGST = some v ∧
        r.spendExclGST = some (pyRound2 (v / (11 / 10)))) ∧
    (∀ doc : List Page, ∀ r ∈ parse_vodafone doc,
      (∀ v, r.spendInclGST = some v →
        r.spendExclGST = some (pyRound2 (v / (11 / 10)))) ∧
      (r.spendInclGST = none → r.spendExclGST = none)) := by
  constructor
  · intro doc rows h r hr
    simp only [parse_optus] at h
    exact optusPages_forall (fullTextOf doc)
      (fun r => ∃ v, r.spendInclGST = some v ∧
        r.spendExclGST = some (pyRound2 (v / (11 / 10))))
      (fun _ _ v _ _ => ⟨v, rfl, rfl⟩) doc rows h r hr
  · intro doc r hr
    simp only [parse_vodafone] at hr
    refine vodaPages_forall (fullTextOf doc)
      (fun r => (∀ v, r.spendInclGST = some v →
          r.spendExclGST = some (pyRound2 (v / (11 / 10)))) ∧
        (r.spendInclGST = none → r.spendExclGST = none)) ?_ doc r hr
    intro s caps _
    constructor
    · intro v hv
      simp only at hv ⊢
      rw [hv]
      rfl
    · intro hv
      simp only at hv ⊢
      rw [hv]
      rfl


/-- Witness for C2 on the concrete Optus scenario document. -/
theorem c2_witness :
    ∃ v, (SimpleRow.mk "0403061668" "Business Mobile Plus M2M"
        (some (pyRound2 (60 / (11 / 10)))) (some 60)).spendInclGST = some v ∧
      (SimpleRow.mk "0403061668" "Business Mobile Plus M2M"
        (some (pyRound2 (60 / (11 / 10)))) (some 60)).spendExclGST =
        some (pyRound2 (v / (11 / 10))) :=
  c2_gst_derivation.1 optusScenarioDoc
    [⟨"0403061668", "Business Mobile Plus M2M", some (pyRound2 (60 / (11 / 10))), some 60⟩]
    (by decide) _ (List.mem_singleton.mpr rfl)

/-- **C8.** The Optus parser uses the "Total Monthly Charges" amount found
by the document-wide search for the same identifier when one exists, and
the nominal line amount otherwise; the scenario line with no override
yields Spend Incl GST = 60.00 and Spend Excl GST = 54.55, and the same
line with a later override yields the override amount instead. -/
theorem c8_optus_override :
    (∀ ft number raw : List Char, reSearch (optusDiscRE number) ft = none →
      optusSpend ft number raw = pyFloat raw) ∧
    (∀ (ft number raw : List Char) (caps : Caps),
      reSearch (optusDiscRE number) ft = some caps →
      optusSpend ft number raw = pyFloat ((capGet caps 1).getD [])) ∧
    parse_optus optusScenarioDoc =
      some [⟨"0403061668", "Business Mobile Plus M2M", some (1091 / 20), some 60⟩] ∧
    parse_optus optusOverrideDoc =
      some [⟨"0403061668", "Business Mobile Plus M2M", some (1134 / 25), some (499 / 10)⟩] := by
  refine ⟨?_, ?_, by decide, by decide⟩
  · intro ft number raw h
    simp only [optusSpend, h]
  · intro ft number raw caps h
    simp only [optusSpend, h]

/-- Witness for C8 at a concrete text with no override. -/
theorem c8_witness :
    optusSpend "no monthly override".data "0403061668".data "60".data =
      pyFloat "60".data :=
  c8_optus_override.1 _ _ _ (by decide)

/-- **C9.** The carrier selector tests the Telstra markers, then the Optus
markers, then the Vodafone markers over the full concatenated text; the
first match decides the provider, and a document matching none yields the
empty table with provider "Unknown" and no exception. -/
theorem c9_selector (doc : List Page) :
    (telstraMarker (fullTextOf doc) = false → optusMarker (fullTextOf doc) = false →
      vodafoneMarker (fullTextOf doc) = false →
      extract_invoice_data doc = some ([], "Unknown")) ∧
    (telstraMarker (fullTextOf doc) = true →
      ∀ res, extract_invoice_data doc = some res → res.2 = "Telstra") ∧
    (telstraMarker (fullTextOf doc) = false → optusMarker (fullTextOf doc) = true →
      ∀ res, extract_invoice_data doc = some res → res.2 = "Optus") ∧
    (telstraMarker (fullTextOf doc) = false → optusMarker (fullTextOf doc) = false →
      vodafoneMarker (fullTextOf doc) = true →
      extract_invoice_data doc = some (parse_vodafone doc, "Vodafone")) := by
  refine ⟨?_, ?_, ?_, ?_⟩
  · intro h1 h2 h3
    simp [extract_invoice_data, h1, h2, h3]
  · intro h1 res hres
    simp only [extract_invoice_data, h1, if_true] at hres
    cases hpt : parse_telstra doc with
    | none => rw [hpt] at hres; simp at hres
    | some rows =>
      rw [hpt] at hres
      simp only [Option.map_some'] at hres
      injection hres with hres
      rw [← hres]
  · intro h1 h2 res hres
    simp only [extract_invoice_data, h1, h2] at hres
    cases hpo : parse_optus doc with
    | none => rw [hpo] at hres; simp at hres
    | some rows =>
      rw [hpo] at hres
      simp only [Option.map_some'] at hres
      injection hres with hres
      rw [← hres]
  · intro h1 h2 h3
    simp [extract_invoice_data, h1, h2, h3]

/-- Witness for C9 on a marker-free document. -/
theorem c9_witness : extract_invoice_data unknownDoc = some ([], "Unknown") :=
  (c9_selector unknownDoc).1 (by decide) (by decide) (by decide)


/-! ## Identifier shape (C6) -/

/-- A mobile-number header capture of `parse_telstra` survives in
`current_number` as a word of the number pattern with spaces removed;
rows only carry such numbers. -/
theorem telstraLineStep_inv {st st' : Option String × List SimpleRow} {line : List Char}
    (h : telstraLineStep st line = some st')
    (h1 : ∀ num, st.1 = some num →
      ∃ t, Sem telstraNumBody t ∧ num = String.mk (removeChar ' ' t))
    (h2 : ∀ r ∈ st.2,
      ∃ t, Sem telstraNumBody t ∧ r.mobileNumber = String.mk (removeChar ' ' t)) :
    (∀ num, st'.1 = some num →
      ∃ t, Sem telstraNumBody t ∧ num = String.mk (removeChar ' ' t)) ∧
    ∀ r ∈ st'.2,
      ∃ t, Sem telstraNumBody t ∧ r.mobileNumber = String.mk (removeChar ' ' t) := by
  simp only [telstraLineStep] at h
  cases hsearch : reSearch telstraMobileRE line with
  | some caps =>
    rw [hsearch] at h
    simp only at h
    injection h with h
    subst h
    refine ⟨?_, h2⟩
    intro num hnum
    simp only at hnum
    injection hnum with hnum
    have hmust : (capGet caps 1).isSome = true :=
      (reSearch_spec hsearch).2 1 (by decide)
    obtain ⟨t, ht⟩ := Option.isSome_iff_exists.mp hmust
    refine ⟨t, capSem_telstraMobile_1 ((reSearch_spec hsearch).1 1 t ht), ?_⟩
    rw [← hnum, ht]
    rfl
  | none =>
    rw [hsearch] at h
    simp only at h
    by_cases hbiz : (containsSub line "Business".data &&
        (containsSub line "Plan".data || containsSub line "Bundle".data)) = true
    · rw [if_pos hbiz] at h
      cases hch : reFirst telstraChargeRE line with
      | none =>
        rw [hch] at h
        simp only at h
        injection h with h
        subst h
        exact ⟨h1, h2⟩
      | some r0 =>
        obtain ⟨s0, caps0⟩ := r0
        rw [hch] at h
        cases hcur : st.1 with
        | none =>
          rw [hcur] at h
          simp only at h
          injection h with h
          subst h
          exact ⟨h1, h2⟩
        | some num =>
          rw [hcur] at h
          simp only at h
          cases hf1 : pyFloat (removeChar ',' ((capGet caps0 2).getD [])) with
          | none =>
            rw [hf1] at h
            simp at h
          | some ex =>
            rw [hf1] at h
            cases hf2 : pyFloat (removeChar ',' ((capGet caps0 3).getD [])) with
            | none =>
              rw [hf2] at h
              simp at h
            | some inc =>
              rw [hf2] at h
              simp only at h
              injection h with h
              subst h
              refine ⟨?_, ?_⟩
              · intro num1 hnum1
                simp only at hnum1
                injection hnum1 with hnum1
                rw [← hnum1]
                exact h1 num hcur
              intro r hr
              rcases List.mem_append.mp hr with hr | hr
              · exact h2 r hr
              · rw [List.mem_singleton.mp hr]
                exact h1 num hcur
    · rw [if_neg hbiz] at h
      injection h with h
      subst h
      exact ⟨h1, h2⟩

/-- The invariant of `telstraLineStep_inv` holds through the line loop. -/
theorem telstraLines_inv :
    ∀ (lines : List (List Char)) (st st' : Option String × List SimpleRow),
      List.foldlM telstraLineStep st lines = some st' →
      ((∀ num, st.1 = some num →
        ∃ t, Sem telstraNumBody t ∧ num = String.mk (removeChar ' ' t)) ∧
       ∀ r ∈ st.2,
        ∃ t, Sem telstraNumBody t ∧ r.mobileNumber = String.mk (removeChar ' ' t)) →
      (∀ num, st'.1 = some num →
        ∃ t, Sem telstraNumBody t ∧ num = String.mk (removeChar ' ' t)) ∧
      ∀ r ∈ st'.2,
        ∃ t, Sem telstraNumBody t ∧ r.mobileNumber = String.mk (removeChar ' ' t) := by
  intro lines
  induction lines with
  | nil =>
    intro st st' h hinv
    simp only [List.foldlM_nil] at h
    injection h with h
    subst h
    exact hinv
  | cons l ls ih =>
    intro st st' h hinv
    simp only [List.foldlM_cons] at h
    cases hstep : telstraLineStep st l with
    | none => rw [hstep] at h; simp at h
    | some st1 =>
      rw [hstep] at h
      exact ih st1 st' h (telstraLineStep_inv hstep hinv.1 hinv.2)

/-- The invariant holds through the page loop of `parse_telstra`. -/
theorem telstraPages_inv :
    ∀ (ps : List Page) (st : Option String × List SimpleRow) (rows : List SimpleRow),
      telstraPages st ps = some rows →
      ((∀ num, st.1 = some num →
        ∃ t, Sem telstraNumBody t ∧ num = String.mk (removeChar ' ' t)) ∧
       ∀ r ∈ st.2,
        ∃ t, Sem telstraNumBody t ∧ r.mobileNumber = String.mk (removeChar ' ' t)) →
      ∀ r ∈ rows,
        ∃ t, Sem telstraNumBody t ∧ r.mobileNumber = String.mk (removeChar ' ' t) := by
  intro ps
  induction ps with
  | nil =>
    intro st rows h hinv
    simp only [telstraPages] at h
    injection h with h
    subst h
    exact hinv.2
  | cons p pt ih =>
    intro st rows h hinv
    simp only [telstraPages] at h
    cases hempty : p.text.data.isEmpty with
    | true =>
      rw [if_pos hempty] at h
      exact ih st rows h hinv
    | false =>
      rw [if_neg (by simp [hempty])] at h
      cases hfold : List.foldlM telstraLineStep st (pySplitLines p.text.data) with
      | none => rw [hfold] at h; simp at h
      | some st1 =>
        rw [hfold] at h
        exact ih st1 rows h (telstraLines_inv _ st st1 hfold hinv)

/-- The normalized detailed-mode identifier is all digits, at most ten of
them. -/
theorem normalizeMobile_shape (raw : List Char) :
    (normalizeMobile raw).all Char.isDigit = true ∧ (normalizeMobile raw).length ≤ 10 := by
  rw [normalizeMobile]
  by_cases h : 10 ≤ (raw.filter Char.isDigit).length
  · rw [if_pos h]
    constructor
    · rw [List.all_eq_true]
      intro c hc
      exact List.of_mem_filter (List.mem_of_mem_drop hc)
    · rw [List.length_drop]
      omega
  · rw [if_neg h]
    constructor
    · rw [List.all_eq_true]
      intro c hc
      exact List.of_mem_filter hc
    · omega

/-- `drop_duplicates` only removes rows. -/
theorem dedupKeepLast_sublist : ∀ l : List SummaryRow, List.Sublist (dedupKeepLast l) l := by
  intro l
  induction l with
  | nil => simp [dedupKeepLast]
  | cons r rest ih =>
    rw [dedupKeepLast]
    by_cases h : rest.any (fun s => s.mobileNumber = r.mobileNumber)
    · rw [if_pos h]
      exact ih.cons r
    · rw [if_neg h]
      exact ih.cons₂ r

/-- Every finalized row is one of the candidate rows. -/
theorem mem_finalizeRows {r : SummaryRow} {rows : List SummaryRow}
    (h : r ∈ finalizeRows rows) : r ∈ rows := by
  rw [finalizeRows] at h
  by_cases he : rows.isEmpty
  · rw [if_pos he] at h
    exact h
  · rw [if_neg he] at h
    exact (List.perm_insertionSort rowLE rows).subset ((dedupKeepLast_sublist _).subset h)

/-- A stored entry either carries the stored key or was present before. -/
theorem mapStore_mem {m : List (String × SummaryRec)} {k : String} {v : SummaryRec}
    {q : String × SummaryRec} (h : q ∈ mapStore m k v) : q.1 = k ∨ q ∈ m := by
  rw [mapStore] at h
  by_cases hf : (m.find? (fun q => q.1 = k)).isSome = true
  · rw [if_pos hf] at h
    obtain ⟨q0, hq0, heq⟩ := List.mem_map.mp h
    by_cases hk : q0.1 = k
    · rw [if_pos hk] at heq
      rw [← heq]
      exact Or.inl rfl
    · rw [if_neg hk] at heq
      rw [← heq]
      exact Or.inr hq0
  · rw [if_neg hf] at h
    rcases List.mem_append.mp h with h | h
    · exact Or.inr h
    · rw [List.mem_singleton.mp h]
      exact Or.inl rfl

/-- Every key of the aggregate map is a normalized identifier. -/
theorem processPage_keys {m : List (String × SummaryRec)} {p : Page}
    (hm : ∀ q ∈ m, ∃ raw, q.1 = String.mk (normalizeMobile raw)) :
    ∀ q ∈ processPage m p, ∃ raw, q.1 = String.mk (normalizeMobile raw) := by
  intro q hq
  rw [processPage] at hq
  cases hsr : reSearch summaryHeaderRE p.text.data with
  | none =>
    rw [hsr] at hq
    exact hm q hq
  | some caps =>
    rw [hsr] at hq
    simp only at hq
    rcases mapStore_mem hq with h | h
    · exact ⟨_, h⟩
    · exact hm q h

/-- The key property propagates through the page fold. -/
theorem foldl_processPage_keys :
    ∀ (doc : List Page) (m : List (String × SummaryRec)),
      (∀ q ∈ m, ∃ raw, q.1 = String.mk (normalizeMobile raw)) →
      ∀ q ∈ doc.foldl processPage m, ∃ raw, q.1 = String.mk (normalizeMobile raw) := by
  intro doc
  induction doc with
  | nil =>
    intro m hm
    exact hm
  | cons p pt ih =>
    intro m hm
    exact ih _ (processPage_keys hm)

/-- **C6 (amended).** Optus and Vodafone rows carry exactly ten digits;
Telstra simple-mode rows carry a non-empty identifier holding exactly ten
digit characters (whitespace separators other than a plain space survive
`replace(" ", "")`); detailed-summary identifiers are all digits, at most
(not always exactly) ten of them. -/
theorem c6_identifier_shape :
    (∀ (doc : List Page) (rows : List SimpleRow), parse_optus doc = some rows →
      ∀ r ∈ rows, r.mobileNumber.data.length = 10 ∧
        r.mobileNumber.data.all Char.isDigit = true) ∧
    (∀ doc : List Page, ∀ r ∈ parse_vodafone doc,
      r.mobileNumber.data.length = 10 ∧ r.mobileNumber.data.all Char.isDigit = true) ∧
    (∀ (doc : List Page) (rows : List SimpleRow), parse_telstra doc = some rows →
      ∀ r ∈ rows, (r.mobileNumber.data.filter Char.isDigit).length = 10 ∧
        r.mobileNumber.data ≠ []) ∧
    (∀ doc : List Page, ∀ r ∈ parse_telstra_pdf doc,
      r.mobileNumber.data.all Char.isDigit = true ∧ r.mobileNumber.data.length ≤ 10) := by
  refine ⟨?_, ?_, ?_, ?_⟩
  · intro doc rows h r hr
    simp only [parse_optus] at h
    refine optusPages_forall (fullTextOf doc)
      (fun r => r.mobileNumber.data.length = 10 ∧
        r.mobileNumber.data.all Char.isDigit = true) ?_ doc rows h r hr
    intro s caps v hcaps _
    have hmust : (capGet caps 1).isSome = true :=
      (findall_spec hcaps).2 1 (by decide)
    obtain ⟨t, ht⟩ := Option.isSome_iff_exists.mp hmust
    have hsem := capSem_optusLine_1 ((findall_spec hcaps).1 1 t ht)
    have := sem_num04 hsem
    simp only [ht, Option.getD_some]
    exact this
  · intro doc r hr
    simp only [parse_vodafone] at hr
    refine vodaPages_forall (fullTextOf doc)
      (fun r => r.mobileNumber.data.length = 10 ∧
        r.mobileNumber.data.all Char.isDigit = true) ?_ doc r hr
    intro s caps hcaps
    have hmust : (capGet caps 1).isSome = true :=
      (findall_spec hcaps).2 1 (by decide)
    obtain ⟨t, ht⟩ := Option.isSome_iff_exists.mp hmust
    have hsem := capSem_vodaLine_1 ((findall_spec hcaps).1 1 t ht)
    have := sem_num04 hsem
    simp only [ht, Option.getD_some]
    exact this
  · intro doc rows h r hr
    simp only [parse_telstra] at h
    obtain ⟨t, hsem, hmob⟩ :=
      telstraPages_inv doc (none, []) rows h ⟨by simp, by simp⟩ r hr
    have hten : ((removeChar ' ' t).filter Char.isDigit).length = 10 := by
      rw [filter_digit_removeSpace]
      exact sem_telstraNum hsem
    rw [hmob]
    refine ⟨hten, ?_⟩
    intro hempty
    have hnil : removeChar ' ' t = [] := hempty
    rw [hnil] at hten
    simp at hten
  · intro doc r hr
    simp only [parse_telstra_pdf] at hr
    have hr2 := mem_finalizeRows hr
    obtain ⟨q, hq, hbuild⟩ := List.mem_map.mp hr2
    obtain ⟨raw, hraw⟩ := foldl_processPage_keys doc [] (by simp) q hq
    have hmob : r.mobileNumber = q.1 := by
      rw [← hbuild]
      rfl
    rw [hmob, hraw]
    exact normalizeMobile_shape raw

/-- Counterexample for C6 as stated: a detailed-mode header with eight
digits yields an eight-character identifier, and a Telstra simple-mode
header with a tab separator yields a non-numeric identifier. -/
theorem c6_counterexample :
    (parse_telstra_pdf c6docA).map (fun r => r.mobileNumber) = ["12345678"] ∧
    ("12345678".data.length = 10 → False) ∧
    parse_telstra c6docB = some [⟨"0400\t111222", "Business Mobile Plan Basic",
      some (1591 / 25), some 70⟩] ∧
    ("0400\t111222".data.all Char.isDigit = true → False) :=
  ⟨by decide, by decide, by decide, by decide⟩

/-- Witness for C6 on the concrete Vodafone scenario document. -/
theorem c6_witness :
    (SimpleRow.mk "0403061668" "RedPlan" (some 50) (some 55)).mobileNumber.data.length = 10 ∧
    (SimpleRow.mk "0403061668" "RedPlan"
      (some 50) (some 55)).mobileNumber.data.all Char.isDigit = true :=
  c6_identifier_shape.2.1 vodaScenarioDoc _ (by decide)


/-! ## Line-loop semantics (C3, C4, C5) -/

set_option maxHeartbeats 1600000 in
/-- **C3.** A match of any of the seven count metrics overwrites its
stored counter with the matched value (independently of the old value);
a Total-call-charges or Total-service-charges match adds both of its
amounts to the stored totals; the scenario document whose count line
appears twice (3 then 7) and whose Total-call-charges line appears twice
with (10.00, 11.00) and (5.00, 5.50) ends with count 7 and Total Call
Charges (Excl, Incl) = (15.00, 16.50). -/
theorem c3_overwrite_vs_accumulate :
    (∀ (d : SummaryRec) (line : List Char) (v : Nat),
      searchCount natDirectRE (pyStrip line) = some v →
      (processLine d line).natDirectCalls = v) ∧
    (∀ (d : SummaryRec) (line : List Char) (v : Nat),
      searchCount smsOrigRE (pyStrip line) = some v →
      (processLine d line).smsOriginated = v) ∧
    (∀ (d : SummaryRec) (line : List Char) (v : Nat),
      searchCount enhSmsRE (pyStrip line) = some v →
      (processLine d line).enhancedSms = v) ∧
    (∀ (d : SummaryRec) (line : List Char) (v : Nat),
      searchCount callDivRE (pyStrip line) = some v →
      (processLine d line).callDiversionCalls = v) ∧
    (∀ (d : SummaryRec) (line : List Char) (v : Nat),
      searchCount callsMadeOSRE (pyStrip line) = some v →
      (processLine d line).callsMadeOverseas = v) ∧
    (∀ (d : SummaryRec) (line : List Char) (v : Nat),
      searchCount callsRecvOSRE (pyStrip line) = some v →
      (processLine d line).callsReceivedOverseas = v) ∧
    (∀ (d : SummaryRec) (line : List Char) (v : Nat),
      searchCount osDataRE (pyStrip line) = some v →
      (processLine d line).overseasDataSessions = v) ∧
    (∀ (d : SummaryRec) (line : List Char) (caps : Caps) (ex inc : ℚ),
      reSearch totCallRE (pyStrip line) = some caps →
      pyFloat ((capGet caps 1).getD []) = some ex →
      pyFloat ((capGet caps 2).getD []) = some inc →
      (processLine d line).totCallEx = d.totCallEx + ex ∧
      (processLine d line).totCallInc = d.totCallInc + inc) ∧
    (∀ (d : SummaryRec) (line : List Char) (caps : Caps) (ex inc : ℚ),
      reSearch totSvcRE (pyStrip line) = some caps →
      pyFloat ((capGet caps 1).getD []) = some ex →
      pyFloat ((capGet caps 2).getD []) = some inc →
      (processLine d line).totSvcEx = d.totSvcEx + ex ∧
      (processLine d line).totSvcInc = d.totSvcInc + inc) ∧
    parse_telstra_pdf c3doc =
      [⟨"0400936296", 7, 0, 0, 0, 0, 0, 0, 15, 33 / 2, 0, 0, 0, "", 15, 33 / 2⟩] := by
  refine ⟨?_, ?_, ?_, ?_, ?_, ?_, ?_, ?_, ?_, by decide⟩
  · intro d line v h
    simp only [processLine, h]
    (repeat' split) <;> rfl
  · intro d line v h
    simp only [processLine, h]
    (repeat' split) <;> rfl
  · intro d line v h
    simp only [processLine, h]
    (repeat' split) <;> rfl
  · intro d line v h
    simp only [processLine, h]
    (repeat' split) <;> rfl
  · intro d line v h
    simp only [processLine, h]
    (repeat' split) <;> rfl
  · intro d line v h
    simp only [processLine, h]
    (repeat' split) <;> rfl
  · intro d line v h
    simp only [processLine, h]
    (repeat' split) <;> rfl
  · intro d line caps ex inc h hf1 hf2
    simp only [processLine, h, hf1, hf2]
    constructor <;> (repeat' split) <;> rfl
  · intro d line caps ex inc h hf1 hf2
    simp only [processLine, h, hf1, hf2]
    constructor <;> (repeat' split) <;> rfl

/-- Witness for C3 at concrete lines for every metric, with nonzero
starting records where the overwrite/accumulate distinction shows. -/
theorem c3_witness :
    (processLine {initRec with natDirectCalls := 3}
        "National Direct 7 calls".data).natDirectCalls = 7 ∧
    (processLine {initRec with smsOriginated := 9}
        "Mobile Originated SMS 4 calls".data).smsOriginated = 4 ∧
    (processLine {initRec with enhancedSms := 9}
        "Mobile Enhanced SMS 2 call".data).enhancedSms = 2 ∧
    (processLine {initRec with callDiversionCalls := 9}
        "Call Diversion 6 calls".data).callDiversionCalls = 6 ∧
    (processLine {initRec with callsMadeOverseas := 9}
        "Calls made O/S 1 calls".data).callsMadeOverseas = 1 ∧
    (processLine {initRec with callsReceivedOverseas := 9}
        "Calls received O/S 2 calls".data).callsReceivedOverseas = 2 ∧
    (processLine {initRec with overseasDataSessions := 9}
        "Data Usage Overseas 8 calls".data).overseasDataSessions = 8 ∧
    (processLine {initRec with totCallEx := 10, totCallInc := 11}
        "Total call charges $5.00 $5.50".data).totCallEx = 10 + 5 ∧
    (processLine {initRec with totCallEx := 10, totCallInc := 11}
        "Total call charges $5.00 $5.50".data).totCallInc = 11 + 11 / 2 ∧
    (processLine {initRec with totSvcEx := 1, totSvcInc := 2}
        "Total service charges $3.00 $3.30".data).totSvcEx = 1 + 3 ∧
    (processLine {initRec with totSvcEx := 1, totSvcInc := 2}
        "Total service charges $3.00 $3.30".data).totSvcInc = 2 + 33 / 10 :=
  ⟨c3_overwrite_vs_accumulate.1 _ _ 7 (by decide),
   c3_overwrite_vs_accumulate.2.1 _ _ 4 (by decide),
   c3_overwrite_vs_accumulate.2.2.1 _ _ 2 (by decide),
   c3_overwrite_vs_accumulate.2.2.2.1 _ _ 6 (by decide),
   c3_overwrite_vs_accumulate.2.2.2.2.1 _ _ 1 (by decide),
   c3_overwrite_vs_accumulate.2.2.2.2.2.1 _ _ 2 (by decide),
   c3_overwrite_vs_accumulate.2.2.2.2.2.2.1 _ _ 8 (by decide),
   (c3_overwrite_vs_accumulate.2.2.2.2.2.2.2.1 _ _ [(2, "5.50".data), (1, "5.00".data)]
      5 (11 / 2) (by decide) (by decide) (by decide)).1,
   (c3_overwrite_vs_accumulate.2.2.2.2.2.2.2.1 _ _ [(2, "5.50".data), (1, "5.00".data)]
      5 (11 / 2) (by decide) (by decide) (by decide)).2,
   (c3_overwrite_vs_accumulate.2.2.2.2.2.2.2.2.1 _ _ [(2, "3.30".data), (1, "3.00".data)]
      3 (33 / 10) (by decide) (by decide) (by decide)).1,
   (c3_overwrite_vs_accumulate.2.2.2.2.2.2.2.2.1 _ _ [(2, "3.30".data), (1, "3.00".data)]
      3 (33 / 10) (by decide) (by decide) (by decide)).2⟩

/-- The updated-entry lookup lemma: storing under one key does not change
what any other key maps to. -/
theorem find?_map_update_ne (m : List (String × SummaryRec)) (k k' : String)
    (v : SummaryRec) (hne : k' ≠ k) :
    (m.map fun q => if q.1 = k then (k, v) else q).find? (fun q => q.1 = k') =
      m.find? (fun q => q.1 = k') := by
  induction m with
  | nil => rfl
  | cons q t ih =>
    simp only [List.map_cons, List.find?_cons]
    by_cases hk : q.1 = k
    · rw [if_pos hk]
      have h1 : (decide ((k, v).1 = k')) = false := by
        simp [Ne.symm hne]
      have h2 : (decide (q.1 = k')) = false := by
        simp [hk, Ne.symm hne]
      rw [h1, h2]
      exact ih
    · rw [if_neg hk]
      cases hq : decide (q.1 = k') with
      | true => rfl
      | false => exact ih

/-- Lookup through `mapStore` at a different key. -/
theorem mapLookup_mapStore_ne {m : List (String × SummaryRec)} {k k' : String}
    {v : SummaryRec} (hne : k' ≠ k) :
    mapLookup (mapStore m k v) k' = mapLookup m k' := by
  rw [mapStore]
  by_cases hf : (m.find? (fun q => q.1 = k)).isSome = true
  · rw [if_pos hf, mapLookup, mapLookup, find?_map_update_ne m k k' v hne]
  · rw [if_neg hf, mapLookup, mapLookup, List.find?_append]
    have h1 : List.find? (fun q => q.1 = k') [(k, v)] = none := by
      simp [Ne.symm hne]
    rw [h1]
    cases m.find? (fun q => q.1 = k') <;> rfl

/-- `mapStore` keeps the keys pairwise distinct. -/
theorem mapStore_keysPairwise {m : List (String × SummaryRec)} {k : String}
    {v : SummaryRec} (hm : m.Pairwise (fun a b => a.1 ≠ b.1)) :
    (mapStore m k v).Pairwise (fun a b => a.1 ≠ b.1) := by
  rw [mapStore]
  by_cases hf : (m.find? (fun q => q.1 = k)).isSome = true
  · rw [if_pos hf]
    have hkey : ∀ q : String × SummaryRec,
        ((fun q => if q.1 = k then (k, v) else q) q).1 = q.1 := by
      intro q
      by_cases hk : q.1 = k
      · simp [hk]
      · simp [hk]
    rw [List.pairwise_map]
    refine hm.imp ?_
    intro a b hab
    rw [hkey a, hkey b]
    exact hab
  · rw [if_neg hf]
    rw [List.pairwise_append]
    refine ⟨hm, List.pairwise_singleton _ _, ?_⟩
    intro a ha b hb
    rw [List.mem_singleton.mp hb]
    have hnone : m.find? (fun q => q.1 = k) = none :=
      Option.not_isSome_iff_eq_none.mp (by simpa using hf)
    have := List.find?_eq_none.mp hnone a ha
    simpa using this

/-- `processPage` keeps the keys pairwise distinct. -/
theorem processPage_keysPairwise {m : List (String × SummaryRec)} {p : Page}
    (hm : m.Pairwise (fun a b => a.1 ≠ b.1)) :
    (processPage m p).Pairwise (fun a b => a.1 ≠ b.1) := by
  rw [processPage]
  cases reSearch summaryHeaderRE p.text.data with
  | none => exact hm
  | some caps =>
    simp only
    exact mapStore_keysPairwise hm

/-- The page fold keeps the keys pairwise distinct. -/
theorem foldl_processPage_keysPairwise :
    ∀ (doc : List Page) (m : List (String × SummaryRec)),
      m.Pairwise (fun a b => a.1 ≠ b.1) →
      (doc.foldl processPage m).Pairwise (fun a b => a.1 ≠ b.1) := by
  intro doc
  induction doc with
  | nil =>
    intro m hm
    exact hm
  | cons p pt ih =>
    intro m hm
    exact ih _ (processPage_keysPairwise hm)

/-- Counterexample for C4 as stated: on a page with two identifier
headers, the count line after the second header is attributed to the
FIRST header's subscriber (whose counter it overwrites to 9), and no row
is created for the second identifier. -/
theorem c4_counterexample :
    parse_telstra_pdf c4doc =
      [⟨"0400111222", 9, 0, 0, 0, 0, 0, 0, 0, 0, 0, 0, 0, "", 0, 0⟩] := by decide

/-- **C4 (amended).** Every line and table of a page updates only the
record keyed by the page's first identifier-header match — later headers
on the same page start no new block — and the aggregate map never holds
two records for one identifier, so a recurrence of the same normalized
identifier on a later page accumulates into the existing record. -/
theorem c4_page_attribution :
    (∀ (m : List (String × SummaryRec)) (p : Page) (k : String),
      (∀ caps, reSearch summaryHeaderRE p.text.data = some caps →
        k ≠ String.mk (normalizeMobile ((capGet caps 1).getD []))) →
      mapLookup (processPage m p) k = mapLookup m k) ∧
    (∀ doc : List Page, (doc.foldl processPage []).Pairwise (fun a b => a.1 ≠ b.1)) ∧
    (parse_telstra_pdf c4doc).map (fun r => (r.mobileNumber, r.natDirectCalls)) =
      [("0400111222", 9)] := by
  refine ⟨?_, ?_, by decide⟩
  · intro m p k hk
    rw [processPage]
    cases hsr : reSearch summaryHeaderRE p.text.data with
    | none => rfl
    | some caps =>
      simp only
      exact mapLookup_mapStore_ne (hk caps hsr)
  · intro doc
    exact foldl_processPage_keysPairwise doc [] (List.Pairwise.nil)

/-- Witness for C4 on a page without a header line. -/
theorem c4_witness :
    mapLookup (processPage [] ⟨"no header present", []⟩) "0400333444" =
      mapLookup ([] : List (String × SummaryRec)) "0400333444" :=
  c4_page_attribution.1 [] ⟨"no header present", []⟩ "0400333444"
    (fun caps hcaps => by
      have hnone : reSearch summaryHeaderRE ("no header present" : String).data = none := by
        decide
      rw [hnone] at hcaps
      exact Option.noConfusion hcaps)

/-- Counterexample for C5 as stated: the count line after the "Itemised
call details" marker is still matched and sets the counter to 5. -/
theorem c5_counterexample :
    parse_telstra_pdf c5doc =
      [⟨"0400111222", 5, 0, 0, 0, 0, 0, 0, 0, 0, 0, 0, 0, "", 0, 0⟩] := by decide

/-- **C5 (amended).** There is no itemised-details skipping: the per-line
metric matchers are applied uniformly to every line of a page, lines
after an "Itemised call details" marker included (the marker line itself
matches no metric, and itemised content reaches the output only through
table processing). -/
theorem c5_no_itemised_skip :
    (∀ (d : SummaryRec) (pre post : List (List Char)) (marker : List Char),
      (pre ++ marker :: post).foldl processLine d =
        post.foldl processLine (processLine (pre.foldl processLine d) marker)) ∧
    (∀ d : SummaryRec, processLine d "Itemised call details".data = d) ∧
    (parse_telstra_pdf c5doc).map (fun r => (r.mobileNumber, r.natDirectCalls)) =
      [("0400111222", 5)] := by
  refine ⟨?_, ?_, by decide⟩
  · intro d pre post marker
    rw [List.foldl_append, List.foldl_cons]
  · intro d
    rfl


/-! ## Table-classification guards (C7, C10) -/

/-- With the WAP flag off, a row step leaves the WAP counter. -/
theorem tableRowStep_wap_false (os : Bool) (vi li : Option Nat) (d : SummaryRec)
    (row : List (List Char)) :
    (tableRowStep os false vi li d row).wapVolumeKB = d.wapVolumeKB := by
  unfold tableRowStep
  (repeat' split) <;> (try simp_all) <;> (repeat' split) <;> first | rfl | simp_all

/-- With the overseas flag off, a row step leaves the country set. -/
theorem tableRowStep_os_false (wap : Bool) (vi li : Option Nat) (d : SummaryRec)
    (row : List (List Char)) :
    (tableRowStep false wap vi li d row).overseasCountries = d.overseasCountries := by
  unfold tableRowStep
  (repeat' split) <;> (try simp_all) <;> (repeat' split) <;> first | rfl | simp_all

/-- With both flags off, a row step is the identity. -/
theorem tableRowStep_both_false (vi li : Option Nat) (d : SummaryRec)
    (row : List (List Char)) :
    tableRowStep false false vi li d row = d := by
  unfold tableRowStep
  (repeat' split) <;> (try simp_all) <;> (repeat' split) <;> first | rfl | simp_all

/-- Folding row steps with the WAP flag off leaves the WAP counter. -/
theorem foldl_wap_false (os : Bool) (vi li : Option Nat) :
    ∀ (rows : List (List (List Char))) (d : SummaryRec),
      (rows.foldl (tableRowStep os false vi li) d).wapVolumeKB = d.wapVolumeKB := by
  intro rows
  induction rows with
  | nil =>
    intro d
    rfl
  | cons row rt ih =>
    intro d
    rw [List.foldl_cons, ih, tableRowStep_wap_false]

/-- Folding row steps with the overseas flag off leaves the country set. -/
theorem foldl_os_false (wap : Bool) (vi li : Option Nat) :
    ∀ (rows : List (List (List Char))) (d : SummaryRec),
      (rows.foldl (tableRowStep false wap vi li) d).overseasCountries =
        d.overseasCountries := by
  intro rows
  induction rows with
  | nil =>
    intro d
    rfl
  | cons row rt ih =>
    intro d
    rw [List.foldl_cons, ih, tableRowStep_os_false]

/-- Folding row steps with both flags off changes nothing. -/
theorem foldl_step_id (vi li : Option Nat) :
    ∀ (rows : List (List (List Char))) (d : SummaryRec),
      rows.foldl (tableRowStep false false vi li) d = d := by
  intro rows
  induction rows with
  | nil =>
    intro d
    rfl
  | cons row rt ih =>
    intro d
    rw [List.foldl_cons, tableRowStep_both_false, ih]

/-- **C7.** A table adds no WAP volume unless one of its data rows carries
"wap"/"internet" in the description cell the code selected, adds no
overseas country unless one of its data rows carries both "data usage
overseas" and "gst free", and a table satisfying neither condition
contributes nothing at all. -/
theorem c7_table_guard (d : SummaryRec) (tbl : List (List (List Char))) :
    ((match lastIdxWhere hasDescAlias ((tbl.headD []).map fun c => pyLower (pyStrip c)) with
      | some di => tbl.tail.any (wapMarkRow di)
      | none => false) = false →
      (processTable d tbl).wapVolumeKB = d.wapVolumeKB) ∧
    (tbl.tail.any osRow = false →
      (processTable d tbl).overseasCountries = d.overseasCountries) ∧
    ((match lastIdxWhere hasDescAlias ((tbl.headD []).map fun c => pyLower (pyStrip c)) with
      | some di => tbl.tail.any (wapMarkRow di)
      | none => false) = false →
      tbl.tail.any osRow = false → processTable d tbl = d) := by
  refine ⟨?_, ?_, ?_⟩
  · intro hwap
    rw [processTable]
    by_cases hlen : tbl.length < 2
    · rw [if_pos hlen]
    · rw [if_neg hlen]
      simp only
      cases hdi : lastIdxWhere hasDescAlias ((tbl.headD []).map fun c => pyLower (pyStrip c)) with
      | none => rfl
      | some di =>
        simp only
        rw [hdi] at hwap
        simp only at hwap
        rw [hwap, Bool.and_false]
        exact foldl_wap_false _ _ _ _ d
  · intro hos
    rw [processTable]
    by_cases hlen : tbl.length < 2
    · rw [if_pos hlen]
    · rw [if_neg hlen]
      simp only
      cases hdi : lastIdxWhere hasDescAlias ((tbl.headD []).map fun c => pyLower (pyStrip c)) with
      | none => rfl
      | some di =>
        simp only
        rw [hos]
        exact foldl_os_false _ _ _ _ d
  · intro hwap hos
    rw [processTable]
    by_cases hlen : tbl.length < 2
    · rw [if_pos hlen]
    · rw [if_neg hlen]
      simp only
      cases hdi : lastIdxWhere hasDescAlias ((tbl.headD []).map fun c => pyLower (pyStrip c)) with
      | none => rfl
      | some di =>
        simp only
        rw [hdi] at hwap
        simp only at hwap
        rw [hos, hwap, Bool.and_false]
        exact foldl_step_id _ _ _ d

/-- Witness for C7: a table with a description column but neither marker
contributes nothing. -/
theorem c7_witness : processTable initRec plainTable = initRec :=
  (c7_table_guard initRec plainTable).2.2 (by decide) (by decide)

/-- When no element satisfies the predicate, the index search fails. -/
theorem lastIdxWhereFrom_none {p : List Char → Bool} :
    ∀ (l : List (List Char)) (i : Nat), (∀ x ∈ l, p x = false) →
      lastIdxWhereFrom p i l = none := by
  intro l
  induction l with
  | nil =>
    intro i _
    rfl
  | cons x xs ih =>
    intro i h
    rw [lastIdxWhereFrom,
      ih (i + 1) (fun y hy => h y (List.mem_cons_of_mem _ hy)),
      h x (List.mem_cons_self _ _)]
    rfl

/-- **C10.** A table whose header row has no description/call-type cell
(no cell containing "description", "call type", "number dialled" or
"number dialed") is skipped entirely, whatever its data rows contain. -/
theorem c10_no_desc_skip (d : SummaryRec) (tbl : List (List (List Char)))
    (h : ∀ cell ∈ (tbl.headD []).map (fun c => pyLower (pyStrip c)),
      hasDescAlias cell = false) :
    processTable d tbl = d := by
  rw [processTable]
  by_cases hlen : tbl.length < 2
  · rw [if_pos hlen]
  · rw [if_neg hlen]
    simp only
    have hnone : lastIdxWhere hasDescAlias
        ((tbl.headD []).map fun c => pyLower (pyStrip c)) = none :=
      lastIdxWhereFrom_none _ 0 h
    rw [hnone]

/-- Witness for C10: headers without a description alias, rows carrying
the overseas literals and a digits volume cell — still nothing happens. -/
theorem c10_witness : processTable initRec noDescTable = initRec :=
  c10_no_desc_skip initRec noDescTable (by decide)


end Quadra
